import Mathlib

/-!
Task Tracker CLI: the task manager of `internal/app/app.go` and the command line
of `cmd/task-tracker/main.go`.

A shallow embedding of `TaskManagerImpl`, its methods and `main`.

* Go `int` is the 64-bit two's complement integer: values are `Int`s and every
  arithmetic result goes through `wrapInt`.
* The strings of the manager are `String`s, that is Unicode text. Every string
  read from the backing file is text; a description taken from the command line
  can be any byte sequence, and `TaskImplBytes` is the record with its strings
  as bytes.
* `tm.tasks` is a slice of pointers to distinct `TaskImpl` records (each one is
  allocated by `json.Unmarshal` or by `AddTask`), so the slice is a `List` of
  records and a pointer returned by `findTask` is the position of the record.
* `time.Now()` is an argument of the method that reads the clock.
* The backing file is a `FileState`: what `os.ReadFile` followed by
  `json.Unmarshal` makes of it.  A failing `SaveTasks` leaves it as it was: the
  write is taken to fail before the file is opened (`os.WriteFile` truncates the
  file when it opens it, so a write that fails later leaves a shorter file).
  `JsonFile` is the file as the JSON document it contains, with
  `marshalTasks` for `json.MarshalIndent` and `unmarshalTasks` for
  `json.Unmarshal`; `SaveTasksJson_parsed` relates the two views.
* Everything a method prints is returned as a list of `Msg`, one constructor
  per print statement, rendered by `Msg.text`; `MainMsg` does the same for
  `main.go`.
* `strconv.Atoi` and `Parse` of package `flag` (for a flag set without flags)
  are `Atoi` and `flagParse`.
-/

namespace TaskTracker

/-! ## Machine integers -/

/-- Smallest Go `int` (64 bit). -/
def minInt : Int := -9223372036854775808

/-- Largest Go `int` (64 bit). -/
def maxInt : Int := 9223372036854775807

/-- Two's complement wrap-around of a 64-bit signed result. -/
def wrapInt (x : Int) : Int := (x + 9223372036854775808) % 18446744073709551616 - 9223372036854775808

/-- A value of Go type `int`. -/
def IsGoInt (x : Int) : Prop := minInt ≤ x ∧ x ≤ maxInt

instance (x : Int) : Decidable (IsGoInt x) := by unfold IsGoInt; exact inferInstance

/-! ## Data model -/

/-- An instant of `time.Time`. -/
abbrev Time := Nat

/-- Record `TaskImpl`. -/
structure TaskImpl where
  ID : Int
  Description : String
  Status : String
  CreatedAt : Time
  UpdatedAt : Time
deriving DecidableEq, Repr

def TaskImpl.GetID (t : TaskImpl) : Int := t.ID

def TaskImpl.GetDescription (t : TaskImpl) : String := t.Description

def TaskImpl.GetStatus (t : TaskImpl) : String := t.Status

def TaskImpl.SetDescription (t : TaskImpl) (description : String) : TaskImpl :=
  { t with Description := description }

def TaskImpl.SetStatus (t : TaskImpl) (status : String) : TaskImpl :=
  { t with Status := status }

def TaskImpl.SetUpdatedAt (t : TaskImpl) (updatedAt : Time) : TaskImpl :=
  { t with UpdatedAt := updatedAt }

/-- Record `TaskManagerImpl`. -/
structure TaskManagerImpl where
  filePath : String
  tasks : List TaskImpl
  nextID : Int
deriving DecidableEq, Repr

/-- The backing file as `LoadTasks` sees it. -/
inductive FileState where
  /-- `os.ReadFile` fails and `os.IsNotExist` holds -/
  | missing
  /-- `os.ReadFile` fails with another error -/
  | unreadable (err : String)
  /-- `json.Unmarshal` fails -/
  | malformed (err : String)
  /-- `json.Unmarshal` yields these records -/
  | holds (ts : List TaskImpl)
deriving DecidableEq, Repr

/-- One print statement of `app.go`, with the arguments of its format. -/
inductive Msg where
  | fileNotFound
  | descriptionEmpty
  | errorSaving (err : String)
  | added (id : Int)
  | err (e : String)
  | updated
  | deleteNotFound (id : Int)
  | deleted
  | noTasks
  | taskLine (id : Int) (description status : String)
  | noTasksWithStatus (status : String)
  | markedInProgress
  | markedDone
deriving DecidableEq, Repr

/-- The text a print statement writes to standard output. -/
def Msg.text : Msg → String
  | .fileNotFound => "tasks.json not found, creating a new one.\n"
  | .descriptionEmpty => "Description cannot be empty\n"
  | .errorSaving e => "Error saving tasks: " ++ e ++ "\n"
  | .added id => "Task added successfully (ID: " ++ toString id ++ ")"
  | .err e => e ++ "\n"
  | .updated => "Task updated successfully\n"
  | .deleteNotFound id => "Task with ID " ++ toString id ++ " not found\n"
  | .deleted => "Task deleted successfully\n"
  | .noTasks => "No tasks found.\n"
  | .taskLine id d s => "ID: " ++ toString id ++ ", Description: " ++ d ++ ", Status: " ++ s ++ "\n"
  | .noTasksWithStatus s => "No tasks found with status \x27" ++ s ++ "\x27.\n"
  | .markedInProgress => "Task marked as in progress successfully\n"
  | .markedDone => "Task marked as done successfully\n"

/-- What one method call leaves behind: the manager, the backing file, the
printed messages and the task lists handed to `SaveTasks` (one per call). -/
structure Outcome where
  tm : TaskManagerImpl
  file : FileState
  out : List Msg
  saved : List (List TaskImpl)
deriving DecidableEq, Repr

/-! ## Persistence -/

/-- `LoadTasks`: the error it returns, or the manager after the load, and what
it printed. -/
def LoadTasks (tm : TaskManagerImpl) (file : FileState) :
    Except String TaskManagerImpl × List Msg :=
  match file with
  | .missing => (.ok { tm with nextID := 1 }, [.fileNotFound])
  | .unreadable e => (.error ("error reading tasks file: " ++ e), [])
  | .malformed e => (.error ("error unmarshalling tasks: " ++ e), [])
  | .holds tempTasks =>
    let tm₁ : TaskManagerImpl := { tm with tasks := tempTasks }
    match tm₁.tasks.getLast? with
    | some last => (.ok { tm₁ with nextID := wrapInt (last.GetID + 1) }, [])
    | none => (.ok { tm₁ with nextID := 1 }, [])

/-- `NewTaskManager`: `abs` is the result of `filepath.Abs`. -/
def NewTaskManager (abs : Except String String) (file : FileState) :
    Except String TaskManagerImpl × List Msg :=
  match abs with
  | .error e => (.error ("error getting absolute path: " ++ e), [])
  | .ok absPath =>
    let tm : TaskManagerImpl := { filePath := absPath, tasks := [], nextID := 1 }
    match LoadTasks tm file with
    | (.error e, out) => (.error e, out)
    | (.ok tm₁, out) => (.ok tm₁, out)

/-- `SaveTasks`: `werr` is the error of marshalling or of `os.WriteFile`, if
any; returns the error and the file afterwards. -/
def SaveTasks (tm : TaskManagerImpl) (werr : Option String) (file : FileState) :
    Option String × FileState :=
  match werr with
  | some e => (some e, file)
  | none => (none, .holds tm.tasks)

/-- The message printed after `SaveTasks` when it returned an error. -/
def saveErrorOut (err : Option String) : List Msg :=
  match err with
  | some e => [.errorSaving e]
  | none => []

/-! ## Operations -/

/-- `AddTask`; `now₁` and `now₂` are the two readings of the clock. -/
def AddTask (tm : TaskManagerImpl) (file : FileState) (description : String)
    (now₁ now₂ : Time) (werr : Option String) : Outcome :=
  if description = "" then
    { tm := tm, file := file, out := [.descriptionEmpty], saved := [] }
  else
    let task : TaskImpl :=
      { ID := tm.nextID, Description := description, Status := "todo",
        CreatedAt := now₁, UpdatedAt := now₂ }
    let tm₁ : TaskManagerImpl := { tm with tasks := tm.tasks ++ [task] }
    let r := SaveTasks tm₁ werr file
    { tm := { tm₁ with nextID := wrapInt (tm₁.nextID + 1) },
      file := r.2,
      out := saveErrorOut r.1 ++ [.added tm₁.nextID],
      saved := [tm₁.tasks] }

/-- Position of the first task whose id is `id`: the loop of `findTask` and of
`DeleteTask`. -/
def indexOfID : List TaskImpl → Int → Option Nat
  | [], _ => none
  | task :: rest, id =>
    if task.GetID = id then some 0 else (indexOfID rest id).map (fun i => i + 1)

/-- `findTask`: the position of the task the returned pointer refers to. -/
def findTask (tm : TaskManagerImpl) (id : Int) : Except String Nat :=
  match indexOfID tm.tasks id with
  | some i => .ok i
  | none => .error ("task with ID " ++ toString id ++ " not found")

/-- A write through the pointer at position `i`. -/
def updateAt (f : TaskImpl → TaskImpl) : List TaskImpl → Nat → List TaskImpl
  | [], _ => []
  | t :: ts, 0 => f t :: ts
  | t :: ts, i + 1 => t :: updateAt f ts i

/-- `UpdateTask`. -/
def UpdateTask (tm : TaskManagerImpl) (file : FileState) (id : Int) (newDesc : String)
    (now : Time) (werr : Option String) : Outcome :=
  match findTask tm id with
  | .error e => { tm := tm, file := file, out := [.err e], saved := [] }
  | .ok i =>
    let tm₁ : TaskManagerImpl :=
      if newDesc ≠ "" then
        { tm with tasks :=
            updateAt (fun t => (t.SetDescription newDesc).SetUpdatedAt now) tm.tasks i }
      else tm
    let r := SaveTasks tm₁ werr file
    { tm := tm₁, file := r.2, out := saveErrorOut r.1 ++ [.updated], saved := [tm₁.tasks] }

/-- `DeleteTask`. -/
def DeleteTask (tm : TaskManagerImpl) (file : FileState) (id : Int)
    (werr : Option String) : Outcome :=
  match indexOfID tm.tasks id with
  | none => { tm := tm, file := file, out := [.deleteNotFound id], saved := [] }
  | some index =>
    let tm₁ : TaskManagerImpl :=
      { tm with tasks := tm.tasks.take index ++ tm.tasks.drop (index + 1) }
    let r := SaveTasks tm₁ werr file
    { tm := tm₁, file := r.2, out := saveErrorOut r.1 ++ [.deleted], saved := [tm₁.tasks] }

/-- The line printed for one task. -/
def printTask (task : TaskImpl) : Msg :=
  .taskLine task.GetID task.GetDescription task.GetStatus

/-- `ListTasks`. -/
def ListTasks (tm : TaskManagerImpl) (file : FileState) : Outcome :=
  if tm.tasks.length = 0 then
    { tm := tm, file := file, out := [.noTasks], saved := [] }
  else
    { tm := tm, file := file, out := tm.tasks.map printTask, saved := [] }

/-- `ListFilterByStatus`. -/
def ListFilterByStatus (tm : TaskManagerImpl) (file : FileState) (status : String) : Outcome :=
  if tm.tasks.length = 0 then
    { tm := tm, file := file, out := [.noTasks], saved := [] }
  else
    let filteredTasks := tm.tasks.filter (fun task => task.GetStatus = status)
    if filteredTasks.length = 0 then
      { tm := tm, file := file, out := [.noTasksWithStatus status], saved := [] }
    else
      { tm := tm, file := file, out := filteredTasks.map printTask, saved := [] }

/-- `MarkTaskInProgress`. -/
def MarkTaskInProgress (tm : TaskManagerImpl) (file : FileState) (id : Int)
    (werr : Option String) : Outcome :=
  match findTask tm id with
  | .error e => { tm := tm, file := file, out := [.err e], saved := [] }
  | .ok i =>
    let tm₁ : TaskManagerImpl :=
      { tm with tasks := updateAt (fun t => t.SetStatus "in-progress") tm.tasks i }
    let r := SaveTasks tm₁ werr file
    { tm := tm₁, file := r.2, out := saveErrorOut r.1 ++ [.markedInProgress],
      saved := [tm₁.tasks] }

/-- `MarkTaskDone`. -/
def MarkTaskDone (tm : TaskManagerImpl) (file : FileState) (id : Int)
    (werr : Option String) : Outcome :=
  match findTask tm id with
  | .error e => { tm := tm, file := file, out := [.err e], saved := [] }
  | .ok i =>
    let tm₁ : TaskManagerImpl :=
      { tm with tasks := updateAt (fun t => t.SetStatus "done") tm.tasks i }
    let r := SaveTasks tm₁ werr file
    { tm := tm₁, file := r.2, out := saveErrorOut r.1 ++ [.markedDone],
      saved := [tm₁.tasks] }

/-! ## Sessions -/

/-- A call of one of the manager's operations, with the readings of the clock. -/
inductive Op where
  | add (description : String) (now₁ now₂ : Time)
  | update (id : Int) (newDesc : String) (now : Time)
  | delete (id : Int)
  | markInProgress (id : Int)
  | markDone (id : Int)
  | list
  | listFilter (status : String)
deriving DecidableEq, Repr

/-- A call together with the fate of the save it may attempt. -/
structure Call where
  op : Op
  werr : Option String
deriving DecidableEq, Repr

/-- Run one call on a manager. -/
def exec (tm : TaskManagerImpl) (file : FileState) (c : Call) : Outcome :=
  match c.op with
  | .add d now₁ now₂ => AddTask tm file d now₁ now₂ c.werr
  | .update id d now => UpdateTask tm file id d now c.werr
  | .delete id => DeleteTask tm file id c.werr
  | .markInProgress id => MarkTaskInProgress tm file id c.werr
  | .markDone id => MarkTaskDone tm file id c.werr
  | .list => ListTasks tm file
  | .listFilter s => ListFilterByStatus tm file s

/-- Run a sequence of calls on one manager (one session). -/
def runSession (tm : TaskManagerImpl) (file : FileState) : List Call → Outcome
  | [] => { tm := tm, file := file, out := [], saved := [] }
  | c :: cs =>
    let o := exec tm file c
    let r := runSession o.tm o.file cs
    { tm := r.tm, file := r.file, out := o.out ++ r.out, saved := o.saved ++ r.saved }

/-- The ids reported by the "Task added successfully" messages, in order. -/
def addedIDs (out : List Msg) : List Int :=
  out.filterMap (fun m => match m with
    | .added id => some id
    | _ => none)

/-- Whether a call is an `AddTask` that gets past the check of the description. -/
def Call.isAdd (c : Call) : Bool :=
  match c.op with
  | .add d _ _ => decide (d ≠ "")
  | _ => false

/-- Number of `AddTask` calls of a sequence that assign an id. -/
def countAdds (cs : List Call) : Nat := (cs.filter Call.isAdd).length

/-- The manager `NewTaskManager` builds when the file does not exist. -/
def emptyManager (path : String) : TaskManagerImpl :=
  { filePath := path, tasks := [], nextID := 1 }

/-- The ids of a task list, in order. -/
def ids (ts : List TaskImpl) : List Int := ts.map TaskImpl.GetID

/-- A description that is empty or made of whitespace characters only. -/
def isBlank (description : String) : Bool := description.data.all Char.isWhitespace

/-- The tasks a listing shows: id, description and status of every task line
printed, in order. -/
def shownTasks (out : List Msg) : List (Int × String × String) :=
  out.filterMap (fun m => match m with
    | .taskLine id d s => some (id, d, s)
    | _ => none)

/-- The statuses the dispatcher accepts as a filter (`isValidStatus` of main.go). -/
def isValidStatus (status : String) : Bool :=
  ["todo", "done", "in-progress"].any (fun v => v = status)

/-- The value the specification gives `nextId` after a load: the id of the last
task plus one (not wrapped), and 1 for the empty list. -/
def nextIDAfterLoad (ts : List TaskImpl) : Int :=
  match ts.getLast? with
  | some last => last.GetID + 1
  | none => 1

/-! ## Runs of the program -/

/-- One run of the program that reaches the call `c`: `main` builds the manager
from the file and performs the call; `none` when `NewTaskManager` fails. -/
def invoke (path : String) (file : FileState) (c : Call) : Option Outcome :=
  match NewTaskManager (.ok path) file with
  | (.error _, _) => none
  | (.ok tm, out) =>
    let o := exec tm file c
    some { tm := o.tm, file := o.file, out := out ++ o.out, saved := o.saved }

/-- Successive runs of the program, each on the file the previous one left:
the file at the end and everything printed. -/
def runInvocations (path : String) (file : FileState) : List Call → Option (FileState × List Msg)
  | [] => some (file, [])
  | c :: cs =>
    match invoke path file c with
    | none => none
    | some o =>
      match runInvocations path o.file cs with
      | none => none
      | some (f, out) => some (f, o.out ++ out)

/-- A manager together with its backing file. -/
structure Session where
  tm : TaskManagerImpl
  file : FileState
deriving DecidableEq, Repr

/-- A step of a session: a call, or a save followed by a reload into a manager
built anew by `NewTaskManager`. -/
inductive Step where
  | call (c : Call)
  | reload (werr : Option String)
deriving DecidableEq, Repr

/-- Perform one step; `none` when the reload fails. -/
def step (s : Session) : Step → Option Session
  | .call c =>
    let o := exec s.tm s.file c
    some { tm := o.tm, file := o.file }
  | .reload werr =>
    let r := SaveTasks s.tm werr s.file
    match NewTaskManager (.ok s.tm.filePath) r.2 with
    | (.error _, _) => none
    | (.ok tm, _) => some { tm := tm, file := r.2 }

/-- Perform a sequence of steps. -/
def runSteps (s : Session) : List Step → Option Session
  | [] => some s
  | st :: rest =>
    match step s st with
    | none => none
    | some s₁ => runSteps s₁ rest

/-- Whether a step is an accepted `AddTask`. -/
def Step.isAdd : Step → Bool
  | .call c => c.isAdd
  | .reload _ => false

/-- Number of accepted `AddTask` calls among the steps. -/
def countStepAdds (steps : List Step) : Nat := (steps.filter Step.isAdd).length

/-- The state the program starts from when there is no file yet. -/
def initialSession (path : String) : Session :=
  { tm := emptyManager path, file := .missing }

/-- The steps "add a task, delete it again", `n` times over: the k-th round
deletes the id k. -/
def churn : Nat → List Step
  | 0 => []
  | n + 1 =>
    churn n ++ [.call ⟨.add "a" 0 0, none⟩, .call ⟨.delete ((n + 1 : Nat) : Int), none⟩]

/-- Ids strictly increasing along the list, positive and below `nextID`, with
`nextID` at most `m`. -/
def Ordered (tm : TaskManagerImpl) (m : Int) : Prop :=
  List.Pairwise (fun a b => a < b) (ids tm.tasks) ∧
  (∀ i ∈ ids tm.tasks, 1 ≤ i ∧ i < tm.nextID) ∧ 1 ≤ tm.nextID ∧ tm.nextID ≤ m

/-- The file is absent, or holds tasks whose ids are strictly increasing, positive
and below `m`. -/
def FileOrdered (file : FileState) (m : Int) : Prop :=
  match file with
  | .missing => True
  | .holds ts => List.Pairwise (fun a b => a < b) (ids ts) ∧ ∀ i ∈ ids ts, 1 ≤ i ∧ i < m
  | _ => False

/-! ## The backing file as a JSON document

Strings that reach the manager from the command line are byte sequences that
need not be valid UTF-8; `json.MarshalIndent` writes them as JSON strings, which
are Unicode text. This section has the records with their strings as bytes, the
document `SaveTasks` writes and what `json.Unmarshal` reads from a document.
A JSON text is represented by the value it denotes. -/

/-- A Go string: its bytes, as numbers below 256. -/
abbrev Bytes := List Nat

/-- `utf8.RuneError`, U+FFFD. -/
def runeError : Char := Char.ofNat 0xFFFD

/-- `utf8.DecodeRune`: the rune at the head of the bytes and its width; a byte that
does not start a valid encoding gives `RuneError` with width 1. -/
def decodeRune : Bytes → Char × Nat
  | [] => (runeError, 0)
  | p0 :: rest =>
    if p0 < 0x80 then (Char.ofNat p0, 1)
    else if p0 < 0xC2 then (runeError, 1)
    else if p0 < 0xE0 then
      match rest with
      | b1 :: _ =>
        if 0x80 ≤ b1 ∧ b1 ≤ 0xBF then (Char.ofNat (p0 % 32 * 64 + b1 % 64), 2)
        else (runeError, 1)
      | [] => (runeError, 1)
    else if p0 < 0xF0 then
      match rest with
      | b1 :: b2 :: _ =>
        if (if p0 = 0xE0 then 0xA0 else 0x80) ≤ b1 ∧ b1 ≤ (if p0 = 0xED then 0x9F else 0xBF) ∧
            0x80 ≤ b2 ∧ b2 ≤ 0xBF then
          (Char.ofNat (p0 % 16 * 4096 + b1 % 64 * 64 + b2 % 64), 3)
        else (runeError, 1)
      | _ => (runeError, 1)
    else if p0 < 0xF5 then
      match rest with
      | b1 :: b2 :: b3 :: _ =>
        if (if p0 = 0xF0 then 0x90 else 0x80) ≤ b1 ∧ b1 ≤ (if p0 = 0xF4 then 0x8F else 0xBF) ∧
            0x80 ≤ b2 ∧ b2 ≤ 0xBF ∧ 0x80 ≤ b3 ∧ b3 ≤ 0xBF then
          (Char.ofNat (p0 % 8 * 262144 + b1 % 64 * 4096 + b2 % 64 * 64 + b3 % 64), 4)
        else (runeError, 1)
      | _ => (runeError, 1)
    else (runeError, 1)

/-- The runes of a Go string as the JSON encoder reads them: rune after rune with
`utf8.DecodeRune`, every invalid byte read as U+FFFD; `skip` bytes belong to the
rune read last. -/
def decodeFrom : Bytes → Nat → List Char
  | [], _ => []
  | _ :: rest, skip + 1 => decodeFrom rest skip
  | b :: rest, 0 =>
    (decodeRune (b :: rest)).1 :: decodeFrom rest ((decodeRune (b :: rest)).2 - 1)

/-- The JSON string `json.MarshalIndent` writes for a Go string. -/
def jsonString (s : Bytes) : String := String.mk (decodeFrom s 0)

/-- `utf8.AppendRune`: the UTF-8 encoding of a rune. -/
def encodeRune (c : Char) : Bytes :=
  if c.toNat < 0x80 then [c.toNat]
  else if c.toNat < 0x800 then [0xC0 + c.toNat / 64, 0x80 + c.toNat % 64]
  else if c.toNat < 0x10000 then
    [0xE0 + c.toNat / 4096, 0x80 + c.toNat / 64 % 64, 0x80 + c.toNat % 64]
  else
    [0xF0 + c.toNat / 262144, 0x80 + c.toNat / 4096 % 64, 0x80 + c.toNat / 64 % 64,
     0x80 + c.toNat % 64]

/-- The bytes of the Go string that holds a text. -/
def utf8 (s : String) : Bytes := s.data.flatMap encodeRune

/-- `TaskImpl` with its two strings as the bytes Go holds. -/
structure TaskImplBytes where
  ID : Int
  Description : Bytes
  Status : Bytes
  CreatedAt : Time
  UpdatedAt : Time
deriving DecidableEq, Repr

/-- The record in memory for a task whose strings are text. -/
def TaskImpl.bytes (t : TaskImpl) : TaskImplBytes :=
  { ID := t.ID, Description := utf8 t.Description, Status := utf8 t.Status,
    CreatedAt := t.CreatedAt, UpdatedAt := t.UpdatedAt }

/-- A JSON value. `time t` is a string, in the place of a timestamp, that is the
RFC 3339 text of the instant `t`; every other string is a `str`. `real` is a
number written with a fraction or an exponent. -/
inductive Json where
  | null
  | bool (b : Bool)
  | int (n : Int)
  | real (text : String)
  | str (s : String)
  | time (t : Time)
  | arr (elems : List Json)
  | obj (members : List (String × Json))

/-- `json.MarshalIndent` of one task: an object with one member for each field of
`TaskImpl`, named by the tag of the field, in the order of the fields. -/
def marshalTask (t : TaskImplBytes) : Json :=
  .obj [("id", .int t.ID), ("description", .str (jsonString t.Description)),
    ("status", .str (jsonString t.Status)), ("createdAt", .time t.CreatedAt),
    ("updatedAt", .time t.UpdatedAt)]

/-- `json.MarshalIndent(tm.tasks, "", "  ")`. -/
def marshalTasks (tasks : List TaskImplBytes) : Json := .arr (tasks.map marshalTask)

/-- The fields of `TaskImpl`. -/
inductive Field where
  | id
  | description
  | status
  | createdAt
  | updatedAt
deriving DecidableEq, Repr

/-- The folding under which `json.Unmarshal` compares the key of a member with the
tag of a field: letters fold to upper case, U+017F to S and U+212A to K. -/
def foldName (s : String) : String :=
  String.mk (s.data.map (fun c =>
    if c = Char.ofNat 0x17F then 'S' else if c = Char.ofNat 0x212A then 'K' else c.toUpper))

/-- The field a member of an object is stored in, if any. -/
def fieldOf (key : String) : Option Field :=
  if foldName key = foldName "id" then some .id
  else if foldName key = foldName "description" then some .description
  else if foldName key = foldName "status" then some .status
  else if foldName key = foldName "createdAt" then some .createdAt
  else if foldName key = foldName "updatedAt" then some .updatedAt
  else none

/-- `json.Unmarshal` of one member into its field: `null` leaves the field as it
is, a value of another type than the field is an error. -/
def setField (t : TaskImpl) (field : Field) (value : Json) : Except String TaskImpl :=
  match field, value with
  | _, .null => .ok t
  | .id, .int n =>
    if minInt ≤ n ∧ n ≤ maxInt then .ok { t with ID := n }
    else .error "json: cannot unmarshal number into Go struct field TaskImpl.id of type int"
  | .description, .str s => .ok { t with Description := s }
  | .status, .str s => .ok { t with Status := s }
  | .createdAt, .time x => .ok { t with CreatedAt := x }
  | .updatedAt, .time x => .ok { t with UpdatedAt := x }
  | _, _ => .error "json: cannot unmarshal value into Go struct field of TaskImpl"

/-- The members of an object, stored one after the other; a member that matches
no field is skipped. -/
def setFields (t : TaskImpl) : List (String × Json) → Except String TaskImpl
  | [] => .ok t
  | (key, value) :: rest =>
    match fieldOf key with
    | none => setFields t rest
    | some field =>
      match setField t field value with
      | .error e => .error e
      | .ok t₁ => setFields t₁ rest

/-- `json.Unmarshal` of one element of the array into a `*TaskImpl`: an object
fills a new record, `null` gives the nil pointer (`none`). -/
def unmarshalTask (value : Json) : Except String (Option TaskImpl) :=
  match value with
  | .null => .ok none
  | .obj members =>
    match setFields { ID := 0, Description := "", Status := "", CreatedAt := 0, UpdatedAt := 0 }
        members with
    | .error e => .error e
    | .ok t => .ok (some t)
  | _ => .error "json: cannot unmarshal value into Go value of type app.TaskImpl"

/-- The elements of the array, one after the other. -/
def unmarshalElems : List Json → Except String (List (Option TaskImpl))
  | [] => .ok []
  | value :: rest =>
    match unmarshalTask value with
    | .error e => .error e
    | .ok p =>
      match unmarshalElems rest with
      | .error e => .error e
      | .ok ps => .ok (p :: ps)

/-- `json.Unmarshal(data, &tempTasks)` with `tempTasks` of type `[]*TaskImpl`. -/
def unmarshalTasks (doc : Json) : Except String (List (Option TaskImpl)) :=
  match doc with
  | .null => .ok []
  | .arr elems => unmarshalElems elems
  | _ => .error "json: cannot unmarshal value into Go value of type []*app.TaskImpl"

/-- The records behind a list of pointers none of which is nil. -/
def allRecords : List (Option TaskImpl) → Option (List TaskImpl)
  | [] => some []
  | none :: _ => none
  | some t :: rest =>
    match allRecords rest with
    | none => none
    | some ts => some (t :: ts)

/-- The backing file as `os.ReadFile` sees it. -/
inductive JsonFile where
  | missing
  | unreadable (err : String)
  /-- bytes that are not a JSON text -/
  | noJson (err : String)
  | document (doc : Json)

/-- What `os.ReadFile` followed by `json.Unmarshal` makes of the file. There is
no `FileState` (`none`) for a document with a `null` in the array: it is read
into a nil pointer, on which `LoadTasks` or a later method panics. -/
def JsonFile.parsed : JsonFile → Option FileState
  | .missing => some .missing
  | .unreadable e => some (.unreadable e)
  | .noJson e => some (.malformed e)
  | .document doc =>
    match unmarshalTasks doc with
    | .error e => some (.malformed e)
    | .ok ps =>
      match allRecords ps with
      | none => none
      | some tempTasks => some (.holds tempTasks)

/-- `SaveTasks` on the document: marshal the whole list, then `os.WriteFile`
replaces the content of the file; `werr` is the error of the write, if any. -/
def SaveTasksJson (tasks : List TaskImplBytes) (werr : Option String) (file : JsonFile) :
    Option String × JsonFile :=
  match werr with
  | some e => (some e, file)
  | none => (none, .document (marshalTasks tasks))

/-! ## The command line (`cmd/task-tracker/main.go`) -/

/-- One print statement of `main.go`, or one message of package `flag`. -/
inductive MainMsg where
  | errorCreating (err : String)
  | specifyCommand
  | usageUpdate
  | invalidID
  | usageDelete
  | invalidFilter
  | usageMarkInProgress
  | usageMarkDone
  | invalidCommand
  | badFlag (arg : String)
  | flagNotDefined (name : String)
  | flagUsage (command : String)
deriving DecidableEq, Repr

/-- The text of a message of the command line. -/
def MainMsg.text : MainMsg → String
  | .errorCreating e => "Error creating task manager: " ++ e ++ "\n"
  | .specifyCommand =>
    "Please specify a command (add, update, delete, list, mark-in-progress, mark-done)\n"
  | .usageUpdate => "Usage: update <id> <new-description>\n"
  | .invalidID => "Invalid ID\n"
  | .usageDelete => "Usage: delete <id>\n"
  | .invalidFilter =>
    "invalid filtering input. Valid inputs are: todo, done, in-progress\nUsage: list [status]\n"
  | .usageMarkInProgress => "Usage: mark-in-progress <id>\n"
  | .usageMarkDone => "Usage: mark-done <id>\n"
  | .invalidCommand => "Invalid command\n"
  | .badFlag arg => "bad flag syntax: " ++ arg ++ "\n"
  | .flagNotDefined name => "flag provided but not defined: -" ++ name ++ "\n"
  | .flagUsage command => "Usage of " ++ command ++ ":\n"

/-- `strconv.Atoi`: an optional sign, then decimal digits only, and a value in the
range of `int`. -/
def Atoi (s : String) : Option Int :=
  let digits := match s.data with
    | '+' :: rest => rest
    | '-' :: rest => rest
    | cs => cs
  if digits.isEmpty || !digits.all Char.isDigit then none
  else
    let n : Nat := digits.foldl (fun acc c => 10 * acc + (c.toNat - 48)) 0
    let v : Int := if s.data.head? = some '-' then -(n : Int) else (n : Int)
    if minInt ≤ v ∧ v ≤ maxInt then some v else none

/-- What `Parse` of a flag set does. -/
inductive Parsed where
  /-- `Parse` returns and `Args()` is `rest` -/
  | args (rest : List String)
  /-- `Parse` prints and ends the process (`flag.ExitOnError`) -/
  | exit (status : Nat) (out : List MainMsg)
deriving DecidableEq, Repr

/-- The flag found in an argument that starts with a dash: no flag is defined, so
"h" and "help" print the usage and exit with status 0, every other one is an
error with status 2. -/
def flagFound (command arg : String) (name : List Char) : Parsed :=
  match name with
  | [] => .exit 2 [.badFlag arg, .flagUsage command]
  | c :: _ =>
    if c = '-' ∨ c = '=' then .exit 2 [.badFlag arg, .flagUsage command]
    else
      let key := String.mk (name.takeWhile (fun x => x ≠ '='))
      if key = "help" ∨ key = "h" then .exit 0 [.flagUsage command]
      else .exit 2 [.flagNotDefined key, .flagUsage command]

/-- `Parse` of `flag.NewFlagSet(command, flag.ExitOnError)`, a set without flags,
followed by `Args()`: parsing stops at the first argument that is not a flag,
and "--" is skipped. -/
def flagParse (command : String) : List String → Parsed
  | [] => .args []
  | s :: rest =>
    match s.data with
    | ['-', '-'] => .args rest
    | '-' :: '-' :: name => flagFound command s name
    | '-' :: c :: name => flagFound command s (c :: name)
    | _ => .args (s :: rest)

/-- What the `switch` of `main` ends in: an exit with a status after some messages,
or the call of a method of the manager, after which `main` returns. -/
inductive Dispatch where
  | exit (status : Nat) (out : List MainMsg)
  | call (op : Op)
deriving DecidableEq, Repr

/-- The part of `main` that looks at `os.Args`. -/
def dispatch (osArgs : List String) (now₁ now₂ : Time) : Dispatch :=
  match osArgs with
  | [] => .exit 1 [.specifyCommand]
  | [_] => .exit 1 [.specifyCommand]
  | _ :: command :: rest =>
    if command = "add" then
      match flagParse "add" rest with
      | .exit status out => .exit status out
      | .args args => .call (.add (" ".intercalate args) now₁ now₂)
    else if command = "update" then
      match flagParse "update" rest with
      | .exit status out => .exit status out
      | .args args =>
        match args with
        | a :: d :: more =>
          match Atoi a with
          | none => .exit 1 [.invalidID]
          | some id => .call (.update id (" ".intercalate (d :: more)) now₁)
        | _ => .exit 1 [.usageUpdate]
    else if command = "delete" then
      match flagParse "delete" rest with
      | .exit status out => .exit status out
      | .args args =>
        match args with
        | a :: _ =>
          match Atoi a with
          | none => .exit 1 [.invalidID]
          | some id => .call (.delete id)
        | [] => .exit 1 [.usageDelete]
    else if command = "list" then
      match flagParse "list" rest with
      | .exit status out => .exit status out
      | .args args =>
        match args with
        | a :: _ =>
          if isValidStatus a then .call (.listFilter a) else .exit 1 [.invalidFilter]
        | [] => .call .list
    else if command = "mark-in-progress" then
      match flagParse "mark-in-progress" rest with
      | .exit status out => .exit status out
      | .args args =>
        match args with
        | a :: _ =>
          match Atoi a with
          | none => .exit 1 [.invalidID]
          | some id => .call (.markInProgress id)
        | [] => .exit 1 [.usageMarkInProgress]
    else if command = "mark-done" then
      match flagParse "mark-done" rest with
      | .exit status out => .exit status out
      | .args args =>
        match args with
        | a :: _ =>
          match Atoi a with
          | none => .exit 1 [.invalidID]
          | some id => .call (.markDone id)
        | [] => .exit 1 [.usageMarkDone]
    else .exit 1 [.invalidCommand]

/-- Something printed by the process: by the manager or by the command line. -/
inductive Printed where
  | app (m : Msg)
  | cli (m : MainMsg)
deriving DecidableEq, Repr

/-- What one run of the program leaves behind: everything printed, the method of
the manager that was called (if any), the backing file and the exit status. -/
structure ProcessResult where
  out : List Printed
  called : Option Op
  file : FileState
  status : Nat
deriving DecidableEq, Repr

/-- `main`: build the manager (on failure print the error and return), then look
at the arguments. -/
def main (osArgs : List String) (abs : Except String String) (file : FileState)
    (now₁ now₂ : Time) (werr : Option String) : ProcessResult :=
  match NewTaskManager abs file with
  | (.error e, out) =>
    { out := out.map .app ++ [.cli (.errorCreating e)], called := none, file := file,
      status := 0 }
  | (.ok taskManager, out) =>
    match dispatch osArgs now₁ now₂ with
    | .exit status msgs =>
      { out := out.map .app ++ msgs.map .cli, called := none, file := file, status := status }
    | .call op =>
      let o := exec taskManager file ⟨op, werr⟩
      { out := out.map .app ++ o.out.map .app, called := some op, file := o.file, status := 0 }

/-- The commands `main` knows. -/
def commands : List String :=
  ["add", "update", "delete", "list", "mark-in-progress", "mark-done"]

/-- The argument vectors that the dispatcher itself turns down, described by the
arguments that `Parse` hands back: an unknown command, `update` with fewer than
two arguments, `delete`, `mark-in-progress` or `mark-done` without an argument,
an id that `strconv.Atoi` does not accept, a filter of `list` that is not a
status. -/
inductive InvalidUsage : List String → Prop where
  | unknownCommand (prog command : String) (rest : List String) :
      command ∉ commands → InvalidUsage (prog :: command :: rest)
  | updateTooFew (prog : String) (rest args : List String) :
      flagParse "update" rest = .args args → args.length < 2 →
      InvalidUsage (prog :: "update" :: rest)
  | updateBadID (prog : String) (rest : List String) (a d : String) (more : List String) :
      flagParse "update" rest = .args (a :: d :: more) → Atoi a = none →
      InvalidUsage (prog :: "update" :: rest)
  | idMissing (prog command : String) (rest : List String) :
      command ∈ ["delete", "mark-in-progress", "mark-done"] →
      flagParse command rest = .args [] → InvalidUsage (prog :: command :: rest)
  | badID (prog command : String) (rest : List String) (a : String) (more : List String) :
      command ∈ ["delete", "mark-in-progress", "mark-done"] →
      flagParse command rest = .args (a :: more) → Atoi a = none →
      InvalidUsage (prog :: command :: rest)
  | badFilter (prog : String) (rest : List String) (a : String) (more : List String) :
      flagParse "list" rest = .args (a :: more) → isValidStatus a = false →
      InvalidUsage (prog :: "list" :: rest)

end TaskTracker

/-! ## Theorems -/

namespace TaskTracker

/-! ### Machine integers -/

theorem wrapInt_of_isGoInt {x : Int} (h : IsGoInt x) : wrapInt x = x := by
  unfold IsGoInt minInt maxInt at h
  unfold wrapInt
  omega

theorem wrapInt_succ {x : Int} (h : IsGoInt x) :
    wrapInt (x + 1) = if x = maxInt then minInt else x + 1 := by
  unfold IsGoInt minInt maxInt at h
  unfold wrapInt minInt maxInt
  split <;> omega

/-! ### AddTask -/

/-- C1: `AddTask` with the empty description leaves the tasks and `nextID` as they
were, does not call `SaveTasks`, leaves the file alone, and prints
"Description cannot be empty" and no assigned id. -/
theorem AddTask_empty_rejected (tm : TaskManagerImpl) (file : FileState) (now₁ now₂ : Time)
    (werr : Option String) :
    (AddTask tm file "" now₁ now₂ werr).tm.tasks = tm.tasks ∧
    (AddTask tm file "" now₁ now₂ werr).tm.nextID = tm.nextID ∧
    (AddTask tm file "" now₁ now₂ werr).saved = [] ∧
    (AddTask tm file "" now₁ now₂ werr).file = file ∧
    (AddTask tm file "" now₁ now₂ werr).out = [Msg.descriptionEmpty] ∧
    addedIDs (AddTask tm file "" now₁ now₂ werr).out = [] ∧
    Msg.text Msg.descriptionEmpty = "Description cannot be empty\n" := by
  simp [AddTask, addedIDs, Msg.text]

/-- C2 (as stated, refuted): the description " " is blank, yet `AddTask` accepts it on
the empty manager: a task is appended, `nextID` moves to 2, the list is saved and
id 1 is reported. -/
theorem AddTask_blank_accepted :
    isBlank " " = true ∧
    ¬ ((AddTask (emptyManager "tasks.json") .missing " " 0 0 none).tm.tasks
          = (emptyManager "tasks.json").tasks ∧
       (AddTask (emptyManager "tasks.json") .missing " " 0 0 none).tm.nextID
          = (emptyManager "tasks.json").nextID ∧
       (AddTask (emptyManager "tasks.json") .missing " " 0 0 none).saved = []) ∧
    (AddTask (emptyManager "tasks.json") .missing " " 0 0 none).tm.tasks
      = [⟨1, " ", "todo", 0, 0⟩] ∧
    (AddTask (emptyManager "tasks.json") .missing " " 0 0 none).out = [Msg.added 1] := by
  decide

/-- C2 (amended): `AddTask` rejects a description (state and file unchanged, no save,
"Description cannot be empty" printed) exactly when the description is the empty
string; every other description, blank ones included, is accepted. -/
theorem AddTask_rejects_iff_empty (tm : TaskManagerImpl) (file : FileState) (d : String)
    (now₁ now₂ : Time) (werr : Option String) :
    ((AddTask tm file d now₁ now₂ werr).tm = tm ∧
     (AddTask tm file d now₁ now₂ werr).file = file ∧
     (AddTask tm file d now₁ now₂ werr).saved = [] ∧
     (AddTask tm file d now₁ now₂ werr).out = [Msg.descriptionEmpty]) ↔ d = "" := by
  constructor
  · intro h
    by_contra hd
    have := h.2.2.1
    simp [AddTask, hd] at this
  · intro hd
    subst hd
    simp [AddTask]

/-- C3 (as stated, refuted): when `nextID` is the largest `int`, `AddTask` does not
leave `nextID` at the old value plus one: the increment wraps to the smallest `int`. -/
theorem AddTask_nextID_wraps :
    IsGoInt 9223372036854775807 ∧
    (AddTask ⟨"tasks.json", [], 9223372036854775807⟩ .missing "a" 0 0 none).tm.nextID
      ≠ 9223372036854775807 + 1 ∧
    (AddTask ⟨"tasks.json", [], 9223372036854775807⟩ .missing "a" 0 0 none).tm.nextID
      = -9223372036854775808 := by
  decide

/-- C3 (amended): for a non-empty description `AddTask` appends the task with the old
`nextID`, the description and status "todo"; the earlier tasks keep their
positions; the id printed is the old `nextID`; the new `nextID` is the old one plus
one, except that the largest `int` wraps to the smallest. -/
theorem AddTask_appends (tm : TaskManagerImpl) (file : FileState) (d : String)
    (now₁ now₂ : Time) (werr : Option String) (hd : d ≠ "") (hn : IsGoInt tm.nextID) :
    (AddTask tm file d now₁ now₂ werr).tm.tasks
      = tm.tasks ++ [⟨tm.nextID, d, "todo", now₁, now₂⟩] ∧
    (∀ i, i < tm.tasks.length →
      (AddTask tm file d now₁ now₂ werr).tm.tasks[i]? = tm.tasks[i]?) ∧
    (AddTask tm file d now₁ now₂ werr).tm.tasks.length = tm.tasks.length + 1 ∧
    (AddTask tm file d now₁ now₂ werr).tm.nextID
      = (if tm.nextID = maxInt then minInt else tm.nextID + 1) ∧
    addedIDs (AddTask tm file d now₁ now₂ werr).out = [tm.nextID] ∧
    (AddTask tm file d now₁ now₂ werr).out.getLast? = some (Msg.added tm.nextID) := by
  refine ⟨?_, ?_, ?_, ?_, ?_, ?_⟩
  · simp [AddTask, hd]
  · intro i hi
    simp [AddTask, hd, List.getElem?_append_left hi]
  · simp [AddTask, hd]
  · simp [AddTask, hd, wrapInt_succ hn]
  · cases werr <;> simp [AddTask, hd, addedIDs, SaveTasks, saveErrorOut]
  · cases werr <;> simp [AddTask, hd, SaveTasks, saveErrorOut]

theorem AddTask_appends_witness :
    (AddTask (emptyManager "tasks.json") .missing "buy milk" 7 7 none).tm.tasks
      = [⟨1, "buy milk", "todo", 7, 7⟩] ∧
    (AddTask (emptyManager "tasks.json") .missing "buy milk" 7 7 none).tm.nextID = 2 :=
  ⟨(AddTask_appends (emptyManager "tasks.json") .missing "buy milk" 7 7 none
      (by decide) (by decide)).1,
   (AddTask_appends (emptyManager "tasks.json") .missing "buy milk" 7 7 none
      (by decide) (by decide)).2.2.2.1⟩

end TaskTracker

namespace TaskTracker

/-! ### Sessions: the ids that are assigned -/

theorem addedIDs_append (a b : List Msg) : addedIDs (a ++ b) = addedIDs a ++ addedIDs b := by
  simp [addedIDs, List.filterMap_append]

theorem addedIDs_saveErrorOut (err : Option String) : addedIDs (saveErrorOut err) = [] := by
  cases err <;> simp [addedIDs, saveErrorOut]

theorem addedIDs_map_printTask (ts : List TaskImpl) : addedIDs (ts.map printTask) = [] := by
  induction ts with
  | nil => rfl
  | cons t ts ih =>
    simp only [addedIDs, List.map_cons, List.filterMap_cons, printTask] at ih ⊢
    exact ih

/-- What a call does to `nextID`. -/
theorem exec_nextID (tm : TaskManagerImpl) (file : FileState) (c : Call) :
    (exec tm file c).tm.nextID = if c.isAdd then wrapInt (tm.nextID + 1) else tm.nextID := by
  obtain ⟨op, werr⟩ := c
  cases op with
  | add d n₁ n₂ =>
    by_cases hd : d = "" <;> simp [exec, Call.isAdd, AddTask, hd]
  | update id d n =>
    simp only [exec, Call.isAdd, UpdateTask]
    cases findTask tm id <;> by_cases hd : d = "" <;> simp [hd]
  | delete id =>
    simp only [exec, Call.isAdd, DeleteTask]
    cases indexOfID tm.tasks id <;> simp
  | markInProgress id =>
    simp only [exec, Call.isAdd, MarkTaskInProgress]
    cases findTask tm id <;> simp
  | markDone id =>
    simp only [exec, Call.isAdd, MarkTaskDone]
    cases findTask tm id <;> simp
  | list =>
    simp only [exec, Call.isAdd, ListTasks]
    split <;> simp
  | listFilter s =>
    simp only [exec, Call.isAdd, ListFilterByStatus]
    split
    · simp
    · split <;> simp

/-- The id a call reports: the old `nextID` for an accepted `AddTask`, none otherwise. -/
theorem exec_addedIDs (tm : TaskManagerImpl) (file : FileState) (c : Call) :
    addedIDs (exec tm file c).out = if c.isAdd then [tm.nextID] else [] := by
  obtain ⟨op, werr⟩ := c
  cases op with
  | add d n₁ n₂ =>
    by_cases hd : d = ""
    · simp [exec, Call.isAdd, AddTask, hd, addedIDs]
    · simp [exec, Call.isAdd, AddTask, hd, addedIDs_append, addedIDs_saveErrorOut]
      simp [addedIDs]
  | update id d n =>
    simp only [exec, Call.isAdd, UpdateTask]
    cases findTask tm id
    · simp [addedIDs]
    · simp [addedIDs_append, addedIDs_saveErrorOut]
      simp [addedIDs]
  | delete id =>
    simp only [exec, Call.isAdd, DeleteTask]
    cases indexOfID tm.tasks id
    · simp [addedIDs]
    · simp [addedIDs_append, addedIDs_saveErrorOut]
      simp [addedIDs]
  | markInProgress id =>
    simp only [exec, Call.isAdd, MarkTaskInProgress]
    cases findTask tm id
    · simp [addedIDs]
    · simp [addedIDs_append, addedIDs_saveErrorOut]
      simp [addedIDs]
  | markDone id =>
    simp only [exec, Call.isAdd, MarkTaskDone]
    cases findTask tm id
    · simp [addedIDs]
    · simp [addedIDs_append, addedIDs_saveErrorOut]
      simp [addedIDs]
  | list =>
    simp only [exec, Call.isAdd, ListTasks]
    split
    · simp [addedIDs]
    · simp [addedIDs_map_printTask]
  | listFilter s =>
    simp only [exec, Call.isAdd, ListFilterByStatus]
    split
    · simp [addedIDs]
    · split
      · simp [addedIDs]
      · simp [addedIDs_map_printTask]

theorem countAdds_cons (c : Call) (cs : List Call) :
    countAdds (c :: cs) = (if c.isAdd then 1 else 0) + countAdds cs := by
  unfold countAdds
  by_cases h : c.isAdd = true <;> simp [List.filter_cons, h, Nat.add_comm]

theorem countAdds_append (a b : List Call) : countAdds (a ++ b) = countAdds a + countAdds b := by
  simp [countAdds]

theorem runSession_append (a b : List Call) (tm : TaskManagerImpl) (file : FileState) :
    (runSession tm file (a ++ b)).tm
      = (runSession (runSession tm file a).tm (runSession tm file a).file b).tm ∧
    (runSession tm file (a ++ b)).file
      = (runSession (runSession tm file a).tm (runSession tm file a).file b).file := by
  induction a generalizing tm file with
  | nil => simp [runSession]
  | cons c cs ih => simp [runSession, ih]

/-- Without an accepted `AddTask` a session reports no id. -/
theorem addedIDs_runSession_of_countAdds_zero (cs : List Call) (tm : TaskManagerImpl)
    (file : FileState) (h : countAdds cs = 0) : addedIDs (runSession tm file cs).out = [] := by
  induction cs generalizing tm file with
  | nil => simp [runSession, addedIDs]
  | cons c cs ih =>
    rw [countAdds_cons] at h
    have hc : c.isAdd = false := by
      by_contra hc
      simp at hc
      simp [hc] at h
    have hcs : countAdds cs = 0 := by omega
    simp [runSession, addedIDs_append, exec_addedIDs, hc, ih _ _ hcs]

/-- The ids a session assigns start at `nextID` and increase, as long as the
increments stay in the range of `int`. -/
theorem addedIDs_runSession_increasing (cs : List Call) (tm : TaskManagerImpl)
    (file : FileState) (hn : IsGoInt tm.nextID)
    (hb : tm.nextID + countAdds cs ≤ maxInt + 1) :
    (∀ id ∈ addedIDs (runSession tm file cs).out, tm.nextID ≤ id) ∧
    List.Pairwise (fun a b => a < b) (addedIDs (runSession tm file cs).out) := by
  induction cs generalizing tm file with
  | nil => simp [runSession, addedIDs]
  | cons c cs ih =>
    rw [countAdds_cons] at hb
    by_cases hc : c.isAdd = true
    · simp only [hc, if_true] at hb
      by_cases hz : countAdds cs = 0
      · simp [runSession, addedIDs_append, exec_addedIDs, hc,
          addedIDs_runSession_of_countAdds_zero cs _ _ hz]
      · have hlt : tm.nextID + 1 ≤ maxInt := by
          have : (1 : Int) ≤ (countAdds cs : Int) := by omega
          push_cast at hb
          omega
        have hne : tm.nextID ≠ maxInt := by omega
        have hnext : (exec tm file c).tm.nextID = tm.nextID + 1 := by
          rw [exec_nextID, if_pos hc, wrapInt_succ hn, if_neg hne]
        have hn' : IsGoInt (exec tm file c).tm.nextID := by
          rw [hnext]
          unfold IsGoInt at hn ⊢
          omega
        have hb' : (exec tm file c).tm.nextID + countAdds cs ≤ maxInt + 1 := by
          rw [hnext]
          push_cast at hb
          omega
        obtain ⟨h1, h2⟩ := ih (exec tm file c).tm (exec tm file c).file hn' hb'
        rw [hnext] at h1
        simp only [runSession, addedIDs_append, exec_addedIDs, hc, if_true, List.singleton_append,
          List.mem_cons, List.pairwise_cons]
        refine ⟨?_, ?_, h2⟩
        · rintro id (rfl | hid)
          · exact le_refl _
          · have := h1 id hid
            omega
        · intro id hid
          have := h1 id hid
          omega
    · simp only [hc] at hb
      have hnext : (exec tm file c).tm.nextID = tm.nextID := by
        rw [exec_nextID, if_neg hc]
      have hb' : (exec tm file c).tm.nextID + countAdds cs ≤ maxInt + 1 := by
        rw [hnext]
        simpa using hb
      have hn' : IsGoInt (exec tm file c).tm.nextID := by rw [hnext]; exact hn
      obtain ⟨h1, h2⟩ := ih (exec tm file c).tm (exec tm file c).file hn' hb'
      rw [hnext] at h1
      simp only [runSession, addedIDs_append, exec_addedIDs, hc, List.nil_append]
      exact ⟨h1, h2⟩

/-- C4 (as stated, refuted): started with `nextID` at the largest `int`, two `AddTask`
calls of one session are given the ids 9223372036854775807 and then
-9223372036854775808: the second id is smaller than the first. -/
theorem addedIDs_not_increasing_at_maxInt :
    addedIDs (runSession ⟨"tasks.json", [], 9223372036854775807⟩ .missing
      [⟨.add "a" 0 0, none⟩, ⟨.add "b" 0 0, none⟩]).out
      = [9223372036854775807, -9223372036854775808] ∧
    ¬ List.Pairwise (fun a b => a < b)
      (addedIDs (runSession ⟨"tasks.json", [], 9223372036854775807⟩ .missing
        [⟨.add "a" 0 0, none⟩, ⟨.add "b" 0 0, none⟩]).out) := by
  decide

/-- C4 (amended): in one session started from a manager whose `nextID` plus the number
of accepted `AddTask` calls does not pass the largest `int` plus one, the ids
assigned by the `AddTask` calls are strictly increasing, whatever other
operations are interleaved. -/
theorem addedIDs_strictly_increasing (tm : TaskManagerImpl) (file : FileState)
    (cs : List Call) (hn : IsGoInt tm.nextID)
    (hb : tm.nextID + countAdds cs ≤ maxInt + 1) :
    List.Pairwise (fun a b => a < b) (addedIDs (runSession tm file cs).out) :=
  (addedIDs_runSession_increasing cs tm file hn hb).2

theorem addedIDs_strictly_increasing_witness :
    List.Pairwise (fun a b => a < b)
      (addedIDs (runSession (emptyManager "tasks.json") .missing
        [⟨.add "a" 0 0, none⟩, ⟨.delete 1, none⟩, ⟨.add "" 0 0, none⟩,
         ⟨.add "b" 1 1, some "disk full"⟩, ⟨.list, none⟩]).out) :=
  addedIDs_strictly_increasing (emptyManager "tasks.json") .missing
    [⟨.add "a" 0 0, none⟩, ⟨.delete 1, none⟩, ⟨.add "" 0 0, none⟩,
     ⟨.add "b" 1 1, some "disk full"⟩, ⟨.list, none⟩] (by decide) (by decide)

end TaskTracker

namespace TaskTracker

/-! ### The lookup loop -/

theorem indexOfID_eq_none {ts : List TaskImpl} {id : Int} :
    indexOfID ts id = none ↔ ∀ t ∈ ts, t.GetID ≠ id := by
  induction ts with
  | nil => simp [indexOfID]
  | cons t ts ih =>
    by_cases h : t.GetID = id
    · simp [indexOfID, h]
    · simp [indexOfID, h, ih]

/-- A successful lookup splits the list at the first task carrying the id. -/
theorem indexOfID_eq_some {ts : List TaskImpl} {id : Int} {i : Nat}
    (h : indexOfID ts id = some i) :
    ∃ pre t post, ts = pre ++ t :: post ∧ pre.length = i ∧ t.GetID = id ∧
      ∀ x ∈ pre, x.GetID ≠ id := by
  induction ts generalizing i with
  | nil => simp [indexOfID] at h
  | cons t ts ih =>
    by_cases ht : t.GetID = id
    · simp [indexOfID, ht] at h
      exact ⟨[], t, ts, by simp, by simpa using h, ht, by simp⟩
    · simp [indexOfID, ht] at h
      obtain ⟨j, hj, rfl⟩ := h
      obtain ⟨pre, u, post, hts, hlen, hu, hpre⟩ := ih hj
      refine ⟨t :: pre, u, post, by simp [hts], by simp [hlen], hu, ?_⟩
      intro x hx
      rcases List.mem_cons.mp hx with rfl | hx
      · exact ht
      · exact hpre x hx

theorem take_append_drop_succ (pre post : List TaskImpl) (t : TaskImpl) :
    (pre ++ t :: post).take pre.length ++ (pre ++ t :: post).drop (pre.length + 1)
      = pre ++ post := by
  simp [List.take_append_eq_append_take, List.drop_append_eq_append_drop]

theorem take_append_drop_sublist (ts : List TaskImpl) (i : Nat) :
    List.Sublist (ts.take i ++ ts.drop (i + 1)) ts := by
  rw [← List.eraseIdx_eq_take_drop_succ]
  exact List.eraseIdx_sublist ts i

theorem ids_updateAt (f : TaskImpl → TaskImpl) (hf : ∀ t, (f t).GetID = t.GetID)
    (ts : List TaskImpl) (i : Nat) : ids (updateAt f ts i) = ids ts := by
  induction ts generalizing i with
  | nil => simp [updateAt]
  | cons t ts ih =>
    cases i with
    | zero => simp [updateAt, ids, hf]
    | succ i =>
      have := ih i
      simp only [ids] at this
      simp [updateAt, ids, this]

/-! ### What a call does to the ids of the task list and to the file -/

/-- An accepted `AddTask` appends the old `nextID` to the ids; every other call
leaves a sublist of the ids. -/
theorem ids_exec (tm : TaskManagerImpl) (file : FileState) (c : Call) :
    (c.isAdd = true ∧ ids (exec tm file c).tm.tasks = ids tm.tasks ++ [tm.nextID]) ∨
    (c.isAdd = false ∧ List.Sublist (ids (exec tm file c).tm.tasks) (ids tm.tasks)) := by
  obtain ⟨op, werr⟩ := c
  cases op with
  | add d n₁ n₂ =>
    by_cases hd : d = ""
    · right
      simp [exec, Call.isAdd, AddTask, hd]
    · left
      simp [exec, Call.isAdd, AddTask, hd, ids, TaskImpl.GetID]
  | update id d n =>
    right
    simp only [exec, Call.isAdd, UpdateTask, true_and]
    cases findTask tm id with
    | error e => simp
    | ok i =>
      by_cases hd : d = ""
      · simp [hd]
      · simp only [hd, ne_eq, not_false_eq_true, if_true]
        rw [ids_updateAt _ (by intro t; rfl)]
  | delete id =>
    right
    simp only [exec, Call.isAdd, DeleteTask, true_and]
    cases indexOfID tm.tasks id with
    | none => simp
    | some i => exact (take_append_drop_sublist tm.tasks i).map _
  | markInProgress id =>
    right
    simp only [exec, Call.isAdd, MarkTaskInProgress, true_and]
    cases findTask tm id with
    | error e => simp
    | ok i =>
      simp only
      rw [ids_updateAt _ (by intro t; rfl)]
  | markDone id =>
    right
    simp only [exec, Call.isAdd, MarkTaskDone, true_and]
    cases findTask tm id with
    | error e => simp
    | ok i =>
      simp only
      rw [ids_updateAt _ (by intro t; rfl)]
  | list =>
    right
    simp only [exec, Call.isAdd, ListTasks, true_and]
    split <;> simp
  | listFilter s =>
    right
    simp only [exec, Call.isAdd, ListFilterByStatus, true_and]
    split
    · simp
    · split <;> simp

/-- A call leaves the file as it was or overwrites it with the manager's tasks. -/
theorem exec_file (tm : TaskManagerImpl) (file : FileState) (c : Call) :
    (exec tm file c).file = file ∨ (exec tm file c).file = .holds (exec tm file c).tm.tasks := by
  obtain ⟨op, werr⟩ := c
  cases op with
  | add d n₁ n₂ =>
    by_cases hd : d = ""
    · simp [exec, AddTask, hd]
    · cases werr <;> simp [exec, AddTask, hd, SaveTasks]
  | update id d n =>
    simp only [exec, UpdateTask]
    cases findTask tm id with
    | error e => simp
    | ok i => cases werr <;> simp [SaveTasks]
  | delete id =>
    simp only [exec, DeleteTask]
    cases indexOfID tm.tasks id with
    | none => simp
    | some i => cases werr <;> simp [SaveTasks]
  | markInProgress id =>
    simp only [exec, MarkTaskInProgress]
    cases findTask tm id with
    | error e => simp
    | ok i => cases werr <;> simp [SaveTasks]
  | markDone id =>
    simp only [exec, MarkTaskDone]
    cases findTask tm id with
    | error e => simp
    | ok i => cases werr <;> simp [SaveTasks]
  | list =>
    simp only [exec, ListTasks]
    split <;> simp
  | listFilter s =>
    simp only [exec, ListFilterByStatus]
    split
    · simp
    · split <;> simp

end TaskTracker

namespace TaskTracker

/-! ### `nextID` and the ids of the task list -/

theorem mem_ids {ts : List TaskImpl} {t : TaskImpl} (h : t ∈ ts) : t.GetID ∈ ids ts :=
  List.mem_map_of_mem _ h

/-- A call keeps `nextID` above the ids of the list and never lowers it, as long
as the increment of an accepted `AddTask` stays in the range of `int`. -/
theorem exec_below (tm : TaskManagerImpl) (file : FileState) (c : Call)
    (hn : IsGoInt tm.nextID) (hbelow : ∀ i ∈ ids tm.tasks, i < tm.nextID)
    (hb : tm.nextID + (if c.isAdd then 1 else 0) ≤ maxInt) :
    (exec tm file c).tm.nextID = tm.nextID + (if c.isAdd then 1 else 0) ∧
    IsGoInt (exec tm file c).tm.nextID ∧
    ∀ i ∈ ids (exec tm file c).tm.tasks, i < (exec tm file c).tm.nextID := by
  rcases ids_exec tm file c with ⟨hc, hids⟩ | ⟨hc, hids⟩
  · simp only [hc, if_true] at hb ⊢
    have hne : tm.nextID ≠ maxInt := by omega
    have hnext : (exec tm file c).tm.nextID = tm.nextID + 1 := by
      rw [exec_nextID, if_pos hc, wrapInt_succ hn, if_neg hne]
    refine ⟨hnext, ?_, ?_⟩
    · rw [hnext]
      unfold IsGoInt at hn ⊢
      omega
    · intro i hi
      rw [hids] at hi
      rw [hnext]
      rcases List.mem_append.mp hi with hi | hi
      · have := hbelow i hi
        omega
      · simp at hi
        omega
  · have hnext : (exec tm file c).tm.nextID = tm.nextID := by
      rw [exec_nextID]
      simp [hc]
    refine ⟨by simp [hnext, hc], by rw [hnext]; exact hn, ?_⟩
    intro i hi
    rw [hnext]
    exact hbelow i (hids.subset hi)

/-- Over a whole session `nextID` stays above the ids of the list and does not
decrease. -/
theorem runSession_below (cs : List Call) (tm : TaskManagerImpl) (file : FileState)
    (hn : IsGoInt tm.nextID) (hbelow : ∀ i ∈ ids tm.tasks, i < tm.nextID)
    (hb : tm.nextID + countAdds cs ≤ maxInt) :
    (runSession tm file cs).tm.nextID = tm.nextID + countAdds cs ∧
    IsGoInt (runSession tm file cs).tm.nextID ∧
    ∀ i ∈ ids (runSession tm file cs).tm.tasks, i < (runSession tm file cs).tm.nextID := by
  induction cs generalizing tm file with
  | nil => simpa [runSession, countAdds] using ⟨hn, hbelow⟩
  | cons c cs ih =>
    rw [countAdds_cons] at hb ⊢
    have hnn : (0 : Int) ≤ (countAdds cs : Int) := by positivity
    by_cases hc : c.isAdd = true
    · simp only [hc, if_true] at hb ⊢
      push_cast at hb ⊢
      obtain ⟨h1, h2, h3⟩ := exec_below tm file c hn hbelow (by simp only [hc, if_true]; omega)
      simp only [hc, if_true] at h1
      obtain ⟨k1, k2, k3⟩ := ih (exec tm file c).tm (exec tm file c).file h2 h3
        (by rw [h1]; omega)
      simp only [runSession]
      refine ⟨?_, k2, k3⟩
      rw [k1, h1]
      omega
    · simp only [hc] at hb ⊢
      push_cast at hb ⊢
      obtain ⟨h1, h2, h3⟩ := exec_below tm file c hn hbelow (by simp only [hc]; simp; omega)
      simp only [hc] at h1
      simp only [Bool.false_eq_true, if_false, add_zero] at h1
      obtain ⟨k1, k2, k3⟩ := ih (exec tm file c).tm (exec tm file c).file h2 h3
        (by rw [h1]; omega)
      simp only [runSession]
      refine ⟨?_, k2, k3⟩
      rw [k1, h1]
      simp

theorem ids_le_last_of_pairwise {ts : List TaskImpl} {last : TaskImpl}
    (hp : List.Pairwise (fun a b => a < b) (ids ts)) (hl : ts.getLast? = some last) :
    ∀ i ∈ ids ts, i ≤ last.GetID := by
  obtain ⟨ys, rfl⟩ := List.getLast?_eq_some_iff.mp hl
  intro i hi
  simp only [ids, List.map_append, List.map_cons, List.map_nil] at hp hi
  rw [List.pairwise_append] at hp
  rcases List.mem_append.mp hi with hi | hi
  · exact le_of_lt (hp.2.2 i hi _ (by simp))
  · simp at hi
    omega

/-- C5 (as stated, refuted): loading the parsed list with ids 3 and 1, in this order,
sets `nextID` to 2, which is not above the id 3 of the first task. -/
theorem LoadTasks_nextID_not_above :
    (LoadTasks (emptyManager "tasks.json")
      (.holds [⟨3, "a", "todo", 0, 0⟩, ⟨1, "b", "todo", 0, 0⟩])).1
      = .ok ⟨"tasks.json", [⟨3, "a", "todo", 0, 0⟩, ⟨1, "b", "todo", 0, 0⟩], 2⟩ ∧
    ¬ (∀ t ∈ [(⟨3, "a", "todo", 0, 0⟩ : TaskImpl), ⟨1, "b", "todo", 0, 0⟩],
        t.GetID < (2 : Int)) := by
  refine ⟨rfl, ?_⟩
  decide

/-- C5 (amended): when the last task of the parsed list carries the greatest id of
the list, and that id plus one plus the number of accepted `AddTask` calls stays
within the range of `int`, then after `LoadTasks` and after any sequence of
operations `nextID` is strictly greater than the id of every task in the list
at that moment and at every earlier moment of the session. -/
theorem nextID_above_ids_after_load (tm : TaskManagerImpl) (ts : List TaskImpl)
    (pre suf : List Call)
    (hgo : ∀ t ∈ ts, IsGoInt t.GetID)
    (hlast : ∀ last, ts.getLast? = some last → ∀ t ∈ ts, t.GetID ≤ last.GetID)
    (hb : nextIDAfterLoad ts + countAdds (pre ++ suf) ≤ maxInt) :
    ∃ tm₁, (LoadTasks tm (.holds ts)).1 = .ok tm₁ ∧
      ∀ t ∈ (runSession tm₁ (.holds ts) pre).tm.tasks,
        t.GetID < (runSession tm₁ (.holds ts) (pre ++ suf)).tm.nextID := by
  have key : ∃ tm₁, (LoadTasks tm (.holds ts)).1 = .ok tm₁ ∧ tm₁.tasks = ts ∧
      tm₁.nextID = nextIDAfterLoad ts ∧ IsGoInt tm₁.nextID := by
    cases hl : ts.getLast? with
    | none =>
      refine ⟨{ tm with tasks := ts, nextID := 1 }, ?_, rfl, ?_, (by decide : IsGoInt 1)⟩
      · simp [LoadTasks, hl]
      · simp [nextIDAfterLoad, hl]
    | some last =>
      have h1 : IsGoInt last.GetID := hgo last (List.mem_of_getLast?_eq_some hl)
      have h2 : last.GetID + 1 ≤ maxInt := by
        simp only [nextIDAfterLoad, hl] at hb
        have : (0 : Int) ≤ (countAdds (pre ++ suf) : Int) := by positivity
        omega
      have h3 : last.GetID ≠ maxInt := by omega
      refine ⟨{ tm with tasks := ts, nextID := last.GetID + 1 }, ?_, rfl, ?_, ?_⟩
      · simp [LoadTasks, hl, wrapInt_succ h1, h3]
      · simp [nextIDAfterLoad, hl]
      · unfold IsGoInt at h1 ⊢
        simp only
        omega
  obtain ⟨tm₁, hload, htasks, hnext, hgo₁⟩ := key
  refine ⟨tm₁, hload, ?_⟩
  have hbelow : ∀ i ∈ ids tm₁.tasks, i < tm₁.nextID := by
    intro i hi
    rw [htasks] at hi
    obtain ⟨t, ht, rfl⟩ := List.mem_map.mp hi
    cases hl : ts.getLast? with
    | none =>
      rw [List.getLast?_eq_none_iff] at hl
      simp [hl] at ht
    | some last =>
      have := hlast last hl t ht
      rw [hnext]
      simp only [nextIDAfterLoad, hl]
      omega
  rw [countAdds_append] at hb
  push_cast at hb
  have hnn : (0 : Int) ≤ (countAdds suf : Int) := by positivity
  have hb₁ : tm₁.nextID + countAdds pre ≤ maxInt := by rw [hnext]; omega
  obtain ⟨a1, a2, a3⟩ := runSession_below pre tm₁ (.holds ts) hgo₁ hbelow hb₁
  have hb₂ : (runSession tm₁ (.holds ts) pre).tm.nextID + countAdds suf ≤ maxInt := by
    rw [a1, hnext]; omega
  obtain ⟨b1, _, _⟩ := runSession_below suf (runSession tm₁ (.holds ts) pre).tm
    (runSession tm₁ (.holds ts) pre).file a2 a3 hb₂
  intro t ht
  have := a3 t.GetID (mem_ids ht)
  rw [(runSession_append pre suf tm₁ (.holds ts)).1, b1]
  omega

theorem nextID_above_ids_after_load_witness :
    ∃ tm₁, (LoadTasks (emptyManager "tasks.json")
        (.holds [⟨1, "a", "todo", 0, 0⟩, ⟨3, "b", "done", 0, 0⟩])).1 = .ok tm₁ ∧
      ∀ t ∈ (runSession tm₁ (.holds [⟨1, "a", "todo", 0, 0⟩, ⟨3, "b", "done", 0, 0⟩])
          [⟨.add "c" 1 1, none⟩]).tm.tasks,
        t.GetID < (runSession tm₁ (.holds [⟨1, "a", "todo", 0, 0⟩, ⟨3, "b", "done", 0, 0⟩])
          ([⟨.add "c" 1 1, none⟩] ++ [⟨.delete 4, none⟩, ⟨.add "d" 2 2, none⟩])).tm.nextID :=
  nextID_above_ids_after_load (emptyManager "tasks.json")
    [⟨1, "a", "todo", 0, 0⟩, ⟨3, "b", "done", 0, 0⟩]
    [⟨.add "c" 1 1, none⟩] [⟨.delete 4, none⟩, ⟨.add "d" 2 2, none⟩]
    (by decide) (by decide) (by decide)

end TaskTracker

namespace TaskTracker

/-! ### The order of the ids, in the manager and in the file -/

theorem FileOrdered.mono {file : FileState} {m m' : Int} (h : FileOrdered file m)
    (hm : m ≤ m') : FileOrdered file m' := by
  cases file with
  | missing => trivial
  | unreadable e => exact h
  | malformed e => exact h
  | holds ts =>
    refine ⟨h.1, fun i hi => ?_⟩
    have := h.2 i hi
    omega

theorem Ordered.fileOrdered {tm : TaskManagerImpl} {m : Int} (h : Ordered tm m) :
    FileOrdered (.holds tm.tasks) m := by
  refine ⟨h.1, fun i hi => ?_⟩
  have := h.2.1 i hi
  have := h.2.2.2
  omega

/-- Loading an ordered file gives an ordered manager holding the tasks of the file. -/
theorem NewTaskManager_ordered (path : String) {file : FileState} {m : Int}
    (hf : FileOrdered file m) (hm1 : 1 ≤ m) (hm : m ≤ maxInt) :
    ∃ tm out, NewTaskManager (.ok path) file = (.ok tm, out) ∧ tm.filePath = path ∧
      Ordered tm m ∧ (∀ ts, file = .holds ts → tm.tasks = ts) ∧
      addedIDs out = [] := by
  cases file with
  | missing =>
    refine ⟨⟨path, [], 1⟩, [.fileNotFound], rfl, rfl, ?_, by simp, rfl⟩
    refine ⟨by simp [ids], by simp [ids], le_refl _, hm1⟩
  | unreadable e => exact absurd hf id
  | malformed e => exact absurd hf id
  | holds ts =>
    obtain ⟨hp, hr⟩ := hf
    cases hl : ts.getLast? with
    | none =>
      have hts : ts = [] := List.getLast?_eq_none_iff.mp hl
      refine ⟨⟨path, ts, 1⟩, [], ?_, rfl, ?_, by simp, rfl⟩
      · simp [NewTaskManager, LoadTasks, hl]
      · subst hts
        exact ⟨by simp [ids], by simp [ids], le_refl _, hm1⟩
    | some last =>
      have hmem : last.GetID ∈ ids ts := mem_ids (List.mem_of_getLast?_eq_some hl)
      have hlast := hr _ hmem
      have hgo : IsGoInt last.GetID := by
        unfold IsGoInt minInt
        unfold maxInt at hm ⊢
        omega
      have hne : last.GetID ≠ maxInt := by omega
      refine ⟨⟨path, ts, last.GetID + 1⟩, [], ?_, rfl, ?_, by simp, rfl⟩
      · simp [NewTaskManager, LoadTasks, hl, wrapInt_succ hgo, hne]
      · refine ⟨hp, fun i hi => ?_, by simp only; omega, by simp only; omega⟩
        have h1 := hr i hi
        have h2 := ids_le_last_of_pairwise hp hl i hi
        simp only
        omega

/-- A call keeps the manager and the file ordered; an accepted `AddTask` uses up one
unit of the bound. -/
theorem exec_ordered (tm : TaskManagerImpl) (file : FileState) (c : Call) {m : Int}
    (ht : Ordered tm m) (hf : FileOrdered file m)
    (hb : m + (if c.isAdd then 1 else 0) ≤ maxInt) :
    Ordered (exec tm file c).tm (m + (if c.isAdd then 1 else 0)) ∧
    FileOrdered (exec tm file c).file (m + (if c.isAdd then 1 else 0)) := by
  obtain ⟨hp, hr, h1, hm⟩ := ht
  have hT : Ordered (exec tm file c).tm (m + (if c.isAdd then 1 else 0)) := by
    rcases ids_exec tm file c with ⟨hc, hids⟩ | ⟨hc, hids⟩
    · simp only [hc, if_true] at hb ⊢
      have hgo : IsGoInt tm.nextID := by
        unfold IsGoInt minInt
        unfold maxInt at hb ⊢
        omega
      have hne : tm.nextID ≠ maxInt := by omega
      have hnext : (exec tm file c).tm.nextID = tm.nextID + 1 := by
        rw [exec_nextID, if_pos hc, wrapInt_succ hgo, if_neg hne]
      refine ⟨?_, ?_, ?_, ?_⟩
      · rw [hids, List.pairwise_append]
        refine ⟨hp, by simp, fun a ha b hb' => ?_⟩
        simp at hb'
        have := hr a ha
        omega
      · intro i hi
        rw [hids] at hi
        rw [hnext]
        rcases List.mem_append.mp hi with hi | hi
        · have := hr i hi
          omega
        · simp at hi
          omega
      · rw [hnext]; omega
      · rw [hnext]; omega
    · have hnext : (exec tm file c).tm.nextID = tm.nextID := by
        rw [exec_nextID]
        simp [hc]
      simp only [hc, Bool.false_eq_true, if_false, add_zero]
      refine ⟨hp.sublist hids, fun i hi => ?_, by rw [hnext]; exact h1, by rw [hnext]; exact hm⟩
      rw [hnext]
      exact hr i (hids.subset hi)
  refine ⟨hT, ?_⟩
  rcases exec_file tm file c with h | h
  · rw [h]
    refine hf.mono ?_
    split <;> omega
  · rw [h]
    exact hT.fileOrdered

theorem SaveTasks_ordered (tm : TaskManagerImpl) (werr : Option String) (file : FileState)
    {m : Int} (ht : Ordered tm m) (hf : FileOrdered file m) :
    FileOrdered (SaveTasks tm werr file).2 m := by
  cases werr with
  | none => exact ht.fileOrdered
  | some e => exact hf

theorem countStepAdds_cons (st : Step) (steps : List Step) :
    countStepAdds (st :: steps) = (if st.isAdd then 1 else 0) + countStepAdds steps := by
  unfold countStepAdds
  by_cases h : st.isAdd = true <;> simp [List.filter_cons, h, Nat.add_comm]

/-- Every sequence of steps runs to the end and keeps the manager and the file
ordered, as long as the accepted `AddTask` calls fit below the largest `int`. -/
theorem runSteps_ordered (steps : List Step) (s : Session) (m : Int)
    (ht : Ordered s.tm m) (hf : FileOrdered s.file m) (hm1 : 1 ≤ m)
    (hb : m + countStepAdds steps ≤ maxInt) :
    ∃ s₁, runSteps s steps = some s₁ ∧
      Ordered s₁.tm (m + countStepAdds steps) ∧
      FileOrdered s₁.file (m + countStepAdds steps) := by
  induction steps generalizing s m with
  | nil => exact ⟨s, rfl, by simpa [countStepAdds] using ht, by simpa [countStepAdds] using hf⟩
  | cons st steps ih =>
    rw [countStepAdds_cons] at hb ⊢
    have hnn : (0 : Int) ≤ (countStepAdds steps : Int) := by positivity
    push_cast at hb ⊢
    cases st with
    | call c =>
      simp only [Step.isAdd] at hb ⊢
      have hb1 : m + (if c.isAdd then 1 else 0) ≤ maxInt := by
        split at hb <;> simp_all <;> omega
      obtain ⟨hT, hF⟩ := exec_ordered s.tm s.file c ht hf hb1
      have hm1' : 1 ≤ m + (if c.isAdd then 1 else 0) := by split <;> omega
      obtain ⟨s₁, hrun, hT₁, hF₁⟩ :=
        ih ⟨(exec s.tm s.file c).tm, (exec s.tm s.file c).file⟩ _ hT hF hm1'
          (by rw [add_assoc]; exact hb)
      refine ⟨s₁, by simpa [runSteps, step] using hrun, ?_, ?_⟩
      · rw [← add_assoc]; exact hT₁
      · rw [← add_assoc]; exact hF₁
    | reload werr =>
      simp only [Step.isAdd, Bool.false_eq_true, if_false, Nat.cast_zero, zero_add] at hb ⊢
      have hF := SaveTasks_ordered s.tm werr s.file ht hf
      obtain ⟨tm, out, hnew, _, hT, _, _⟩ :=
        NewTaskManager_ordered s.tm.filePath hF hm1 (by omega)
      obtain ⟨s₁, hrun, hT₁, hF₁⟩ :=
        ih ⟨tm, (SaveTasks s.tm werr s.file).2⟩ m hT hF hm1 hb
      refine ⟨s₁, ?_, hT₁, hF₁⟩
      simp only [runSteps, step, hnew]
      exact hrun

end TaskTracker

namespace TaskTracker

/-- Successive runs of the program all succeed and keep the file ordered. -/
theorem runInvocations_ordered (path : String) (cs : List Call) (file : FileState) (m : Int)
    (hf : FileOrdered file m) (hm1 : 1 ≤ m) (hb : m + countAdds cs ≤ maxInt) :
    ∃ f out, runInvocations path file cs = some (f, out) ∧
      FileOrdered f (m + countAdds cs) := by
  induction cs generalizing file m with
  | nil => exact ⟨file, [], rfl, by simpa [countAdds] using hf⟩
  | cons c cs ih =>
    rw [countAdds_cons] at hb ⊢
    have hnn : (0 : Int) ≤ (countAdds cs : Int) := by positivity
    push_cast at hb ⊢
    have hb1 : m + (if c.isAdd then 1 else 0) ≤ maxInt := by
      split at hb <;> simp_all <;> omega
    obtain ⟨tm, out, hnew, _, hT, _, _⟩ :=
      NewTaskManager_ordered path hf hm1 (by split at hb1 <;> omega)
    obtain ⟨_, hF⟩ := exec_ordered tm file c hT hf hb1
    have hm1' : 1 ≤ m + (if c.isAdd then 1 else 0) := by split <;> omega
    obtain ⟨f, out₁, hrun, hF₁⟩ := ih (exec tm file c).file _ hF hm1'
      (by rw [add_assoc]; exact hb)
    refine ⟨f, (out ++ (exec tm file c).out) ++ out₁, ?_, by rw [← add_assoc]; exact hF₁⟩
    simp only [runInvocations, invoke, hnew, hrun]

/-- C6 (as stated, refuted): three runs of the program on an empty store, add "a",
delete 1, add "b", report the id 1 for both `AddTask` calls: the id of the
deleted task is assigned again. -/
theorem id_reused_after_delete :
    runInvocations "tasks.json" .missing
        [⟨.add "a" 0 0, none⟩, ⟨.delete 1, none⟩, ⟨.add "b" 0 0, none⟩]
      = some (.holds [⟨1, "b", "todo", 0, 0⟩],
          [.fileNotFound, .added 1, .deleted, .added 1]) ∧
    addedIDs [.fileNotFound, .added 1, .deleted, .added 1] = [1, 1] ∧
    ¬ ([1, 1] : List Int).Nodup := by
  refine ⟨rfl, rfl, by decide⟩

/-- C6 (amended): in every sequence of runs of the program on an initially empty
store (fewer than 2^63 - 1 accepted `AddTask` calls), a further `AddTask` with a
non-empty description is given an id strictly greater than the id of every task
in the stored list it loads, hence never the id of a task that is still
stored; the id of a deleted task can be assigned again. -/
theorem added_id_above_stored_ids (path : String) (cs : List Call) (d : String)
    (now₁ now₂ : Time) (werr : Option String) (hd : d ≠ "")
    (hb : 1 + (countAdds cs : Int) ≤ maxInt) :
    ∃ file out, runInvocations path .missing cs = some (file, out) ∧
      ∃ o id, invoke path file ⟨.add d now₁ now₂, werr⟩ = some o ∧
        addedIDs o.out = [id] ∧
        (∀ ts, file = .holds ts → ∀ t ∈ ts, t.GetID < id) ∧
        ∃ t, o.tm.tasks.getLast? = some t ∧ t.GetID = id := by
  obtain ⟨file, out, hrun, hF⟩ := runInvocations_ordered path cs .missing 1 trivial (le_refl _) hb
  have hnn : (0 : Int) ≤ (countAdds cs : Int) := by positivity
  obtain ⟨tm, out₁, hnew, _, hT, hts, hout⟩ := NewTaskManager_ordered path hF (by omega) hb
  have hc : (⟨.add d now₁ now₂, werr⟩ : Call).isAdd = true := by simp [Call.isAdd, hd]
  refine ⟨file, out, hrun,
    { tm := (exec tm file ⟨.add d now₁ now₂, werr⟩).tm,
      file := (exec tm file ⟨.add d now₁ now₂, werr⟩).file,
      out := out₁ ++ (exec tm file ⟨.add d now₁ now₂, werr⟩).out,
      saved := (exec tm file ⟨.add d now₁ now₂, werr⟩).saved },
    tm.nextID, by simp only [invoke, hnew], ?_, ?_, ?_⟩
  · simp only [addedIDs_append, hout, exec_addedIDs, hc, if_true, List.nil_append]
  · intro ts hfile t ht
    have := hts ts hfile
    exact (hT.2.1 t.GetID (mem_ids (by rw [this]; exact ht))).2
  · simp [exec, AddTask, hd, TaskImpl.GetID]

theorem added_id_above_stored_ids_witness :
    ∃ file out, runInvocations "tasks.json" .missing
        [⟨.add "a" 0 0, none⟩, ⟨.add "b" 0 0, none⟩, ⟨.delete 1, none⟩] = some (file, out) ∧
      ∃ o id, invoke "tasks.json" file ⟨.add "c" 1 1, none⟩ = some o ∧
        addedIDs o.out = [id] ∧
        (∀ ts, file = .holds ts → ∀ t ∈ ts, t.GetID < id) ∧
        ∃ t, o.tm.tasks.getLast? = some t ∧ t.GetID = id :=
  added_id_above_stored_ids "tasks.json"
    [⟨.add "a" 0 0, none⟩, ⟨.add "b" 0 0, none⟩, ⟨.delete 1, none⟩] "c" 1 1 none
    (by decide) (by decide)

end TaskTracker

namespace TaskTracker

/-! ### Reachable states -/

theorem runSteps_append (a b : List Step) (s : Session) :
    runSteps s (a ++ b) = (runSteps s a).bind (fun s₁ => runSteps s₁ b) := by
  induction a generalizing s with
  | nil => simp [runSteps]
  | cons st a ih =>
    simp only [List.cons_append, runSteps]
    cases step s st with
    | none => simp
    | some s₁ => simpa using ih s₁

/-- After `n` rounds of "add, delete" the list is empty again and `nextID` is `n + 1`. -/
theorem runSteps_churn (path : String) (n : Nat) (h : (n : Int) + 1 ≤ maxInt) :
    ∃ file, runSteps (initialSession path) (churn n)
      = some ⟨⟨path, [], (n : Int) + 1⟩, file⟩ := by
  induction n with
  | zero => exact ⟨.missing, rfl⟩
  | succ n ih =>
    push_cast at h
    obtain ⟨file, hrun⟩ := ih (by omega)
    have hgo : IsGoInt ((n : Int) + 1) := by
      unfold IsGoInt minInt
      unfold maxInt at h ⊢
      omega
    have hne : (n : Int) + 1 ≠ maxInt := by omega
    refine ⟨.holds [], ?_⟩
    rw [churn, runSteps_append, hrun]
    simp [runSteps, step, exec, AddTask, DeleteTask, SaveTasks, indexOfID, TaskImpl.GetID,
      wrapInt_succ hgo, hne]

/-- C7 (as stated, refuted): 9223372036854775806 rounds of "add, delete" followed by
two `AddTask` calls lead from the empty initial state to a list whose ids are
9223372036854775807 and then -9223372036854775808: not increasing. -/
theorem reachable_ids_not_increasing :
    runSteps (initialSession "tasks.json")
        (churn 9223372036854775806 ++
          [.call ⟨.add "a" 0 0, none⟩, .call ⟨.add "b" 0 0, none⟩])
      = some ⟨⟨"tasks.json",
          [⟨9223372036854775807, "a", "todo", 0, 0⟩, ⟨-9223372036854775808, "b", "todo", 0, 0⟩],
          -9223372036854775807⟩,
          .holds [⟨9223372036854775807, "a", "todo", 0, 0⟩,
            ⟨-9223372036854775808, "b", "todo", 0, 0⟩]⟩ ∧
    ¬ List.Pairwise (fun a b => a < b)
      (ids [⟨9223372036854775807, "a", "todo", 0, 0⟩, ⟨-9223372036854775808, "b", "todo", 0, 0⟩]) := by
  obtain ⟨file, hrun⟩ := runSteps_churn "tasks.json" 9223372036854775806 (by decide)
  refine ⟨?_, by decide⟩
  rw [runSteps_append, hrun]
  rfl

/-- C7 (amended): every sequence of `AddTask`, `UpdateTask`, `DeleteTask`,
`MarkTaskInProgress`, `MarkTaskDone`, listing and save-then-reload steps with
fewer than 2^63 - 1 accepted `AddTask` calls runs from the empty initial state to
a state whose task ids are strictly increasing in list order, hence distinct,
with the last id the greatest, and reloading that list sets `nextID` above every
id in it. -/
theorem reachable_ids_increasing (path : String) (steps : List Step)
    (hb : 1 + (countStepAdds steps : Int) ≤ maxInt) :
    ∃ s, runSteps (initialSession path) steps = some s ∧
      List.Pairwise (fun a b => a < b) (ids s.tm.tasks) ∧
      (ids s.tm.tasks).Nodup ∧
      (∀ last, s.tm.tasks.getLast? = some last → ∀ t ∈ s.tm.tasks, t.GetID ≤ last.GetID) ∧
      ∃ tm₁ out, NewTaskManager (.ok path) (.holds s.tm.tasks) = (.ok tm₁, out) ∧
        tm₁.tasks = s.tm.tasks ∧ ∀ t ∈ tm₁.tasks, t.GetID < tm₁.nextID := by
  have h0 : Ordered (initialSession path).tm 1 :=
    ⟨by simp [initialSession, emptyManager, ids], by simp [initialSession, emptyManager, ids],
      le_refl _, le_refl _⟩
  obtain ⟨s, hrun, hT, _⟩ :=
    runSteps_ordered steps (initialSession path) 1 h0 trivial (le_refl _) hb
  have hnn : (0 : Int) ≤ (countStepAdds steps : Int) := by positivity
  obtain ⟨tm₁, out, hnew, _, hT₁, hts, _⟩ :=
    NewTaskManager_ordered path hT.fileOrdered (by omega) hb
  refine ⟨s, hrun, hT.1, ?_, ?_, tm₁, out, hnew, hts _ rfl, ?_⟩
  · exact hT.1.imp (fun h => ne_of_lt h)
  · intro last hl t ht
    exact ids_le_last_of_pairwise hT.1 hl _ (mem_ids ht)
  · intro t ht
    exact (hT₁.2.1 _ (mem_ids ht)).2

theorem reachable_ids_increasing_witness :
    ∃ s, runSteps (initialSession "tasks.json")
        [.call ⟨.add "a" 0 0, none⟩, .call ⟨.add "b" 1 1, some "disk full"⟩,
         .reload none, .call ⟨.delete 2, none⟩, .reload none, .call ⟨.add "c" 2 2, none⟩,
         .call ⟨.markDone 1, none⟩] = some s ∧
      List.Pairwise (fun a b => a < b) (ids s.tm.tasks) ∧
      (ids s.tm.tasks).Nodup ∧
      (∀ last, s.tm.tasks.getLast? = some last → ∀ t ∈ s.tm.tasks, t.GetID ≤ last.GetID) ∧
      ∃ tm₁ out, NewTaskManager (.ok "tasks.json") (.holds s.tm.tasks) = (.ok tm₁, out) ∧
        tm₁.tasks = s.tm.tasks ∧ ∀ t ∈ tm₁.tasks, t.GetID < tm₁.nextID :=
  reachable_ids_increasing "tasks.json"
    [.call ⟨.add "a" 0 0, none⟩, .call ⟨.add "b" 1 1, some "disk full"⟩,
     .reload none, .call ⟨.delete 2, none⟩, .reload none, .call ⟨.add "c" 2 2, none⟩,
     .call ⟨.markDone 1, none⟩] (by decide)

end TaskTracker

namespace TaskTracker

/-! ### DeleteTask and the failing lookup -/

/-- C8 (as stated, refuted): a file with two tasks of id 1 loads into a manager in
which `DeleteTask` 1 removes the first of them only, and `findTask` 1 then
succeeds, at position 0. -/
theorem findTask_succeeds_after_DeleteTask :
    (LoadTasks (emptyManager "tasks.json")
      (.holds [⟨1, "a", "todo", 0, 0⟩, ⟨1, "b", "todo", 0, 0⟩])).1
      = .ok ⟨"tasks.json", [⟨1, "a", "todo", 0, 0⟩, ⟨1, "b", "todo", 0, 0⟩], 2⟩ ∧
    (DeleteTask ⟨"tasks.json", [⟨1, "a", "todo", 0, 0⟩, ⟨1, "b", "todo", 0, 0⟩], 2⟩
      (.holds [⟨1, "a", "todo", 0, 0⟩, ⟨1, "b", "todo", 0, 0⟩]) 1 none).tm.tasks
      = [⟨1, "b", "todo", 0, 0⟩] ∧
    findTask (DeleteTask ⟨"tasks.json", [⟨1, "a", "todo", 0, 0⟩, ⟨1, "b", "todo", 0, 0⟩], 2⟩
      (.holds [⟨1, "a", "todo", 0, 0⟩, ⟨1, "b", "todo", 0, 0⟩]) 1 none).tm 1 = .ok 0 := by
  refine ⟨rfl, rfl, rfl⟩

/-- C8 (amended): when at most one task of the list carries the id (in particular
when the ids are distinct), `findTask` fails with the not-found error after
`DeleteTask` of that id. -/
theorem findTask_fails_after_DeleteTask (tm : TaskManagerImpl) (file : FileState) (id : Int)
    (werr : Option String) (h : (ids tm.tasks).count id ≤ 1) :
    findTask (DeleteTask tm file id werr).tm id
      = .error ("task with ID " ++ toString id ++ " not found") := by
  have key : indexOfID (DeleteTask tm file id werr).tm.tasks id = none := by
    unfold DeleteTask
    cases hi : indexOfID tm.tasks id with
    | none => simpa using hi
    | some i =>
      obtain ⟨pre, t, post, hts, hlen, ht, hpre⟩ := indexOfID_eq_some hi
      simp only
      rw [hts, ← hlen, take_append_drop_succ, indexOfID_eq_none]
      rw [hts] at h
      simp only [ids, List.map_append, List.map_cons, List.count_append, List.count_cons, ht,
        beq_self_eq_true, if_true] at h
      have hpost : List.count id (List.map TaskImpl.GetID post) = 0 := by omega
      rw [List.count_eq_zero] at hpost
      intro x hx
      rcases List.mem_append.mp hx with hx | hx
      · exact hpre x hx
      · intro hxid
        exact hpost (hxid ▸ List.mem_map_of_mem _ hx)
  simp [findTask, key]

theorem findTask_fails_after_DeleteTask_witness :
    findTask (DeleteTask ⟨"tasks.json", [⟨1, "a", "todo", 0, 0⟩, ⟨2, "b", "done", 0, 0⟩], 3⟩
      .missing 2 none).tm 2 = .error ("task with ID " ++ toString (2 : Int) ++ " not found") :=
  findTask_fails_after_DeleteTask
    ⟨"tasks.json", [⟨1, "a", "todo", 0, 0⟩, ⟨2, "b", "done", 0, 0⟩], 3⟩ .missing 2 none
    (by decide)

/-- C9: when a task with the id is in the list, `DeleteTask` removes the first such
task and nothing else: the list is the old one without that element, one shorter,
the other tasks unchanged and in their order; `nextID` is unchanged, and the new
list is what is handed to `SaveTasks`. -/
theorem DeleteTask_removes (tm : TaskManagerImpl) (file : FileState) (id : Int)
    (werr : Option String) (h : ∃ t ∈ tm.tasks, t.GetID = id) :
    ∃ pre t post, tm.tasks = pre ++ t :: post ∧ t.GetID = id ∧ (∀ x ∈ pre, x.GetID ≠ id) ∧
      (DeleteTask tm file id werr).tm.tasks = pre ++ post ∧
      (DeleteTask tm file id werr).tm.tasks.length + 1 = tm.tasks.length ∧
      List.Sublist (DeleteTask tm file id werr).tm.tasks tm.tasks ∧
      (DeleteTask tm file id werr).tm.nextID = tm.nextID ∧
      (DeleteTask tm file id werr).saved = [pre ++ post] := by
  cases hi : indexOfID tm.tasks id with
  | none =>
    obtain ⟨t, ht, hid⟩ := h
    exact absurd hid (indexOfID_eq_none.mp hi t ht)
  | some i =>
    obtain ⟨pre, t, post, hts, hlen, ht, hpre⟩ := indexOfID_eq_some hi
    have htasks : (DeleteTask tm file id werr).tm.tasks = pre ++ post := by
      simp only [DeleteTask, hi]
      rw [hts, ← hlen, take_append_drop_succ]
    refine ⟨pre, t, post, hts, ht, hpre, htasks, ?_, ?_, ?_, ?_⟩
    · rw [htasks, hts]
      simp
      omega
    · rw [htasks, hts]
      exact List.Sublist.append_left (List.sublist_cons_self t post) pre
    · simp [DeleteTask, hi]
    · have := htasks
      simp only [DeleteTask, hi] at this ⊢
      rw [this]

theorem DeleteTask_removes_witness :
    ∃ pre t post,
      [(⟨1, "a", "todo", 0, 0⟩ : TaskImpl), ⟨2, "b", "done", 0, 0⟩, ⟨3, "c", "todo", 0, 0⟩]
        = pre ++ t :: post ∧ t.GetID = 2 ∧ (∀ x ∈ pre, x.GetID ≠ 2) ∧
      (DeleteTask ⟨"tasks.json",
        [⟨1, "a", "todo", 0, 0⟩, ⟨2, "b", "done", 0, 0⟩, ⟨3, "c", "todo", 0, 0⟩], 4⟩
        .missing 2 none).tm.tasks = pre ++ post ∧
      (DeleteTask ⟨"tasks.json",
        [⟨1, "a", "todo", 0, 0⟩, ⟨2, "b", "done", 0, 0⟩, ⟨3, "c", "todo", 0, 0⟩], 4⟩
        .missing 2 none).tm.tasks.length + 1 = 3 ∧
      List.Sublist (DeleteTask ⟨"tasks.json",
        [⟨1, "a", "todo", 0, 0⟩, ⟨2, "b", "done", 0, 0⟩, ⟨3, "c", "todo", 0, 0⟩], 4⟩
        .missing 2 none).tm.tasks
        [⟨1, "a", "todo", 0, 0⟩, ⟨2, "b", "done", 0, 0⟩, ⟨3, "c", "todo", 0, 0⟩] ∧
      (DeleteTask ⟨"tasks.json",
        [⟨1, "a", "todo", 0, 0⟩, ⟨2, "b", "done", 0, 0⟩, ⟨3, "c", "todo", 0, 0⟩], 4⟩
        .missing 2 none).tm.nextID = 4 ∧
      (DeleteTask ⟨"tasks.json",
        [⟨1, "a", "todo", 0, 0⟩, ⟨2, "b", "done", 0, 0⟩, ⟨3, "c", "todo", 0, 0⟩], 4⟩
        .missing 2 none).saved = [pre ++ post] :=
  DeleteTask_removes
    ⟨"tasks.json", [⟨1, "a", "todo", 0, 0⟩, ⟨2, "b", "done", 0, 0⟩, ⟨3, "c", "todo", 0, 0⟩], 4⟩
    .missing 2 none ⟨⟨2, "b", "done", 0, 0⟩, by decide, rfl⟩

/-! ### Operations on an id that no task carries -/

/-- C10: when no task of the list carries the id, `UpdateTask`, `DeleteTask`,
`MarkTaskInProgress` and `MarkTaskDone` print the not-found message and nothing
else, leave the manager (tasks and `nextID`) and the file as they were, and do
not call `SaveTasks`. -/
theorem absent_id_not_found (tm : TaskManagerImpl) (file : FileState) (id : Int)
    (newDesc : String) (now : Time) (werr : Option String)
    (h : ∀ t ∈ tm.tasks, t.GetID ≠ id) :
    UpdateTask tm file id newDesc now werr
      = ⟨tm, file, [.err ("task with ID " ++ toString id ++ " not found")], []⟩ ∧
    DeleteTask tm file id werr = ⟨tm, file, [.deleteNotFound id], []⟩ ∧
    MarkTaskInProgress tm file id werr
      = ⟨tm, file, [.err ("task with ID " ++ toString id ++ " not found")], []⟩ ∧
    MarkTaskDone tm file id werr
      = ⟨tm, file, [.err ("task with ID " ++ toString id ++ " not found")], []⟩ := by
  have hi : indexOfID tm.tasks id = none := indexOfID_eq_none.mpr h
  refine ⟨?_, ?_, ?_, ?_⟩ <;>
    simp [UpdateTask, DeleteTask, MarkTaskInProgress, MarkTaskDone, findTask, hi]

theorem absent_id_not_found_witness :
    UpdateTask (emptyManager "tasks.json") .missing 99 "x" 5 none
      = ⟨emptyManager "tasks.json", .missing,
          [.err ("task with ID " ++ toString (99 : Int) ++ " not found")], []⟩ ∧
    DeleteTask (emptyManager "tasks.json") .missing 99 none
      = ⟨emptyManager "tasks.json", .missing, [.deleteNotFound 99], []⟩ ∧
    MarkTaskInProgress (emptyManager "tasks.json") .missing 99 none
      = ⟨emptyManager "tasks.json", .missing,
          [.err ("task with ID " ++ toString (99 : Int) ++ " not found")], []⟩ ∧
    MarkTaskDone (emptyManager "tasks.json") .missing 99 none
      = ⟨emptyManager "tasks.json", .missing,
          [.err ("task with ID " ++ toString (99 : Int) ++ " not found")], []⟩ :=
  absent_id_not_found (emptyManager "tasks.json") .missing 99 "x" 5 none
    (by intro t ht; simp [emptyManager] at ht)

end TaskTracker

namespace TaskTracker

/-! ### Writes through the pointer returned by `findTask` -/

theorem updateAt_split (f : TaskImpl → TaskImpl) (pre post : List TaskImpl) (t : TaskImpl) :
    updateAt f (pre ++ t :: post) pre.length = pre ++ f t :: post := by
  induction pre with
  | nil => simp [updateAt]
  | cons p pre ih => simp [updateAt, ih]

theorem SaveTasks_fst (tm : TaskManagerImpl) (werr : Option String) (file : FileState) :
    (SaveTasks tm werr file).1 = werr := by
  cases werr <;> rfl

/-- A successful lookup, as the split of the list at the task that is found. -/
theorem findTask_of_mem {tm : TaskManagerImpl} {id : Int} (h : ∃ t ∈ tm.tasks, t.GetID = id) :
    ∃ pre t post, tm.tasks = pre ++ t :: post ∧ t.GetID = id ∧ (∀ x ∈ pre, x.GetID ≠ id) ∧
      findTask tm id = .ok pre.length := by
  cases hi : indexOfID tm.tasks id with
  | none =>
    obtain ⟨t, ht, hid⟩ := h
    exact absurd hid (indexOfID_eq_none.mp hi t ht)
  | some i =>
    obtain ⟨pre, t, post, hts, hlen, ht, hpre⟩ := indexOfID_eq_some hi
    exact ⟨pre, t, post, hts, ht, hpre, by simp [findTask, hi, hlen]⟩

/-! ### UpdateTask -/

/-- C11: when a task with the id is in the list, `UpdateTask` with a non-empty
description replaces the description of the first such task, sets its updatedAt
to the time of the call and changes nothing else; with the empty description it
changes no task at all. In both cases `nextID` is kept, the whole list is handed
to `SaveTasks`, and "Task updated successfully" is printed last. -/
theorem UpdateTask_sets_description (tm : TaskManagerImpl) (file : FileState) (id : Int)
    (d : String) (now : Time) (werr : Option String) (h : ∃ t ∈ tm.tasks, t.GetID = id) :
    ∃ pre t post, tm.tasks = pre ++ t :: post ∧ t.GetID = id ∧ (∀ x ∈ pre, x.GetID ≠ id) ∧
      (UpdateTask tm file id d now werr).tm.tasks
        = (if d = "" then tm.tasks
           else pre ++ ⟨t.ID, d, t.Status, t.CreatedAt, now⟩ :: post) ∧
      (UpdateTask tm file id d now werr).tm.nextID = tm.nextID ∧
      (UpdateTask tm file id d now werr).saved = [(UpdateTask tm file id d now werr).tm.tasks] ∧
      (UpdateTask tm file id d now werr).out = saveErrorOut werr ++ [Msg.updated] ∧
      (UpdateTask tm file id d now none).file
        = .holds (UpdateTask tm file id d now none).tm.tasks ∧
      Msg.text Msg.updated = "Task updated successfully\n" := by
  obtain ⟨pre, t, post, hts, ht, hpre, hfind⟩ := findTask_of_mem h
  refine ⟨pre, t, post, hts, ht, hpre, ?_, ?_, ?_, ?_, ?_, rfl⟩
  · by_cases hd : d = ""
    · simp [UpdateTask, hfind, hd]
    · simp only [UpdateTask, hfind, hd, ne_eq, not_false_eq_true, if_true, if_false]
      rw [hts, updateAt_split]
      rfl
  · by_cases hd : d = "" <;> simp [UpdateTask, hfind, hd]
  · by_cases hd : d = "" <;> simp [UpdateTask, hfind, hd]
  · by_cases hd : d = "" <;> simp [UpdateTask, hfind, hd, SaveTasks_fst]
  · by_cases hd : d = "" <;> simp [UpdateTask, hfind, hd, SaveTasks]

theorem UpdateTask_sets_description_witness :
    ∃ pre t post,
      [(⟨1, "a", "todo", 3, 3⟩ : TaskImpl), ⟨2, "b", "done", 4, 5⟩] = pre ++ t :: post ∧
      t.GetID = 2 ∧ (∀ x ∈ pre, x.GetID ≠ 2) ∧
      (UpdateTask ⟨"tasks.json", [⟨1, "a", "todo", 3, 3⟩, ⟨2, "b", "done", 4, 5⟩], 3⟩
          .missing 2 "c" 9 none).tm.tasks
        = (if "c" = "" then [⟨1, "a", "todo", 3, 3⟩, ⟨2, "b", "done", 4, 5⟩]
           else pre ++ ⟨t.ID, "c", t.Status, t.CreatedAt, 9⟩ :: post) ∧
      (UpdateTask ⟨"tasks.json", [⟨1, "a", "todo", 3, 3⟩, ⟨2, "b", "done", 4, 5⟩], 3⟩
          .missing 2 "c" 9 none).tm.nextID = 3 ∧
      (UpdateTask ⟨"tasks.json", [⟨1, "a", "todo", 3, 3⟩, ⟨2, "b", "done", 4, 5⟩], 3⟩
          .missing 2 "c" 9 none).saved
        = [(UpdateTask ⟨"tasks.json", [⟨1, "a", "todo", 3, 3⟩, ⟨2, "b", "done", 4, 5⟩], 3⟩
          .missing 2 "c" 9 none).tm.tasks] ∧
      (UpdateTask ⟨"tasks.json", [⟨1, "a", "todo", 3, 3⟩, ⟨2, "b", "done", 4, 5⟩], 3⟩
          .missing 2 "c" 9 none).out = saveErrorOut none ++ [Msg.updated] ∧
      (UpdateTask ⟨"tasks.json", [⟨1, "a", "todo", 3, 3⟩, ⟨2, "b", "done", 4, 5⟩], 3⟩
          .missing 2 "c" 9 none).file
        = .holds (UpdateTask ⟨"tasks.json", [⟨1, "a", "todo", 3, 3⟩, ⟨2, "b", "done", 4, 5⟩], 3⟩
          .missing 2 "c" 9 none).tm.tasks ∧
      Msg.text Msg.updated = "Task updated successfully\n" :=
  UpdateTask_sets_description
    ⟨"tasks.json", [⟨1, "a", "todo", 3, 3⟩, ⟨2, "b", "done", 4, 5⟩], 3⟩ .missing 2 "c" 9 none
    ⟨⟨2, "b", "done", 4, 5⟩, by decide, rfl⟩

/-! ### MarkTaskInProgress and MarkTaskDone -/

/-- The two methods leave the updatedAt of every task as it was. -/
theorem updatedAt_updateAt_SetStatus (ts : List TaskImpl) (status : String) (i : Nat) :
    (updateAt (fun t => t.SetStatus status) ts i).map TaskImpl.UpdatedAt
      = ts.map TaskImpl.UpdatedAt := by
  induction ts generalizing i with
  | nil => simp [updateAt]
  | cons t ts ih =>
    cases i with
    | zero => simp [updateAt, TaskImpl.SetStatus]
    | succ i => simp [updateAt, ih]

/-- Whatever the state and the id, `MarkTaskInProgress` and `MarkTaskDone` leave the
updatedAt of every task as it was: neither of them reads the clock. -/
theorem MarkTask_updatedAt_unchanged (tm : TaskManagerImpl) (file : FileState) (id : Int)
    (werr : Option String) :
    (MarkTaskInProgress tm file id werr).tm.tasks.map TaskImpl.UpdatedAt
      = tm.tasks.map TaskImpl.UpdatedAt ∧
    (MarkTaskDone tm file id werr).tm.tasks.map TaskImpl.UpdatedAt
      = tm.tasks.map TaskImpl.UpdatedAt := by
  constructor
  · simp only [MarkTaskInProgress]
    cases findTask tm id with
    | error e => rfl
    | ok i => exact updatedAt_updateAt_SetStatus tm.tasks "in-progress" i
  · simp only [MarkTaskDone]
    cases findTask tm id with
    | error e => rfl
    | ok i => exact updatedAt_updateAt_SetStatus tm.tasks "done" i

/-- C12 (the code at the failing input): a task last updated at time 10 is marked
done, or in progress, by a later call and still carries updatedAt 10, whereas
`UpdateTask` called at time 20 leaves it with updatedAt 20. -/
theorem MarkTask_keeps_updatedAt :
    (MarkTaskDone ⟨"tasks.json", [⟨1, "a", "todo", 10, 10⟩], 2⟩
        (.holds [⟨1, "a", "todo", 10, 10⟩]) 1 none).tm.tasks = [⟨1, "a", "done", 10, 10⟩] ∧
    (MarkTaskInProgress ⟨"tasks.json", [⟨1, "a", "todo", 10, 10⟩], 2⟩
        (.holds [⟨1, "a", "todo", 10, 10⟩]) 1 none).tm.tasks
      = [⟨1, "a", "in-progress", 10, 10⟩] ∧
    (UpdateTask ⟨"tasks.json", [⟨1, "a", "todo", 10, 10⟩], 2⟩
        (.holds [⟨1, "a", "todo", 10, 10⟩]) 1 "b" 20 none).tm.tasks
      = [⟨1, "b", "todo", 10, 20⟩] := by
  decide

/-- C13: when a task with the id is in the list, `MarkTaskInProgress` sets the status
of the first such task to "in-progress" and `MarkTaskDone` sets it to "done",
whatever it was; the id and the description of that task, all other tasks, the
order and `nextID` stay as they were, and the whole list is handed to `SaveTasks`,
which on success leaves it in the file. -/
theorem MarkTask_sets_status (tm : TaskManagerImpl) (file : FileState) (id : Int)
    (werr : Option String) (h : ∃ t ∈ tm.tasks, t.GetID = id) :
    ∃ pre t post, tm.tasks = pre ++ t :: post ∧ t.GetID = id ∧ (∀ x ∈ pre, x.GetID ≠ id) ∧
      (MarkTaskInProgress tm file id werr).tm.tasks
        = pre ++ ⟨t.ID, t.Description, "in-progress", t.CreatedAt, t.UpdatedAt⟩ :: post ∧
      (MarkTaskDone tm file id werr).tm.tasks
        = pre ++ ⟨t.ID, t.Description, "done", t.CreatedAt, t.UpdatedAt⟩ :: post ∧
      (MarkTaskInProgress tm file id werr).tm.nextID = tm.nextID ∧
      (MarkTaskDone tm file id werr).tm.nextID = tm.nextID ∧
      (MarkTaskInProgress tm file id werr).saved
        = [(MarkTaskInProgress tm file id werr).tm.tasks] ∧
      (MarkTaskDone tm file id werr).saved = [(MarkTaskDone tm file id werr).tm.tasks] ∧
      (MarkTaskInProgress tm file id none).file
        = .holds (MarkTaskInProgress tm file id none).tm.tasks ∧
      (MarkTaskDone tm file id none).file = .holds (MarkTaskDone tm file id none).tm.tasks := by
  obtain ⟨pre, t, post, hts, ht, hpre, hfind⟩ := findTask_of_mem h
  refine ⟨pre, t, post, hts, ht, hpre, ?_, ?_, ?_, ?_, ?_, ?_, ?_, ?_⟩
  · simp only [MarkTaskInProgress, hfind]
    rw [hts, updateAt_split]
    rfl
  · simp only [MarkTaskDone, hfind]
    rw [hts, updateAt_split]
    rfl
  · simp [MarkTaskInProgress, hfind]
  · simp [MarkTaskDone, hfind]
  · simp [MarkTaskInProgress, hfind]
  · simp [MarkTaskDone, hfind]
  · simp [MarkTaskInProgress, hfind, SaveTasks]
  · simp [MarkTaskDone, hfind, SaveTasks]

theorem MarkTask_sets_status_witness :
    ∃ pre t post,
      [(⟨1, "a", "done", 3, 3⟩ : TaskImpl), ⟨2, "b", "todo", 4, 5⟩] = pre ++ t :: post ∧
      t.GetID = 1 ∧ (∀ x ∈ pre, x.GetID ≠ 1) ∧
      (MarkTaskInProgress ⟨"tasks.json", [⟨1, "a", "done", 3, 3⟩, ⟨2, "b", "todo", 4, 5⟩], 3⟩
          .missing 1 none).tm.tasks
        = pre ++ ⟨t.ID, t.Description, "in-progress", t.CreatedAt, t.UpdatedAt⟩ :: post ∧
      (MarkTaskDone ⟨"tasks.json", [⟨1, "a", "done", 3, 3⟩, ⟨2, "b", "todo", 4, 5⟩], 3⟩
          .missing 1 none).tm.tasks
        = pre ++ ⟨t.ID, t.Description, "done", t.CreatedAt, t.UpdatedAt⟩ :: post :=
  let ⟨pre, t, post, h1, h2, h3, h4, h5, _⟩ := MarkTask_sets_status
    ⟨"tasks.json", [⟨1, "a", "done", 3, 3⟩, ⟨2, "b", "todo", 4, 5⟩], 3⟩ .missing 1 none
    ⟨⟨1, "a", "done", 3, 3⟩, by decide, rfl⟩
  ⟨pre, t, post, h1, h2, h3, h4, h5⟩

end TaskTracker

namespace TaskTracker

/-! ### `nextID` after a load -/

/-- C15 (as stated, refuted): loading a list whose last task carries the largest `int`
as its id sets `nextID` to -9223372036854775808, not to that id plus one. -/
theorem LoadTasks_nextID_wraps :
    IsGoInt 9223372036854775807 ∧
    (LoadTasks (emptyManager "tasks.json")
      (.holds [⟨9223372036854775807, "a", "todo", 0, 0⟩])).1
      = .ok ⟨"tasks.json", [⟨9223372036854775807, "a", "todo", 0, 0⟩], -9223372036854775808⟩ ∧
    (-9223372036854775808 : Int) ≠ 9223372036854775807 + 1 := by
  refine ⟨by decide, rfl, by decide⟩

/-- C15 (amended): a successful `LoadTasks` keeps the parsed list and sets `nextID` to
the id of the last task plus one, wrapped to the smallest `int` when that id is
the largest `int`, and to 1 when the list is empty or the file does not exist;
the next `AddTask` with a non-empty description is given that `nextID`. -/
theorem LoadTasks_sets_nextID (tm : TaskManagerImpl) (ts : List TaskImpl) (file : FileState)
    (d : String) (now₁ now₂ : Time) (werr : Option String)
    (hgo : ∀ t ∈ ts, IsGoInt t.GetID) (hd : d ≠ "") :
    ∃ tm₁, (LoadTasks tm (.holds ts)).1 = .ok tm₁ ∧ tm₁.tasks = ts ∧
      tm₁.nextID = (match ts.getLast? with
        | none => 1
        | some last => if last.GetID = maxInt then minInt else last.GetID + 1) ∧
      (LoadTasks tm .missing).1 = .ok { tm with nextID := 1 } ∧
      addedIDs (AddTask tm₁ file d now₁ now₂ werr).out = [tm₁.nextID] := by
  have hadd : ∀ tm₁ : TaskManagerImpl,
      addedIDs (AddTask tm₁ file d now₁ now₂ werr).out = [tm₁.nextID] := by
    intro tm₁
    have := exec_addedIDs tm₁ file ⟨.add d now₁ now₂, werr⟩
    simpa [exec, Call.isAdd, hd] using this
  cases hl : ts.getLast? with
  | none =>
    exact ⟨{ tm with tasks := ts, nextID := 1 }, by simp [LoadTasks, hl], rfl, rfl, rfl, hadd _⟩
  | some last =>
    have h1 : IsGoInt last.GetID := hgo last (List.mem_of_getLast?_eq_some hl)
    refine ⟨{ tm with tasks := ts, nextID := wrapInt (last.GetID + 1) },
      by simp [LoadTasks, hl], rfl, ?_, rfl, hadd _⟩
    simp only
    exact wrapInt_succ h1

theorem LoadTasks_sets_nextID_witness :
    ∃ tm₁, (LoadTasks (emptyManager "tasks.json")
        (.holds [⟨1, "a", "todo", 0, 0⟩, ⟨3, "b", "todo", 0, 0⟩])).1 = .ok tm₁ ∧
      tm₁.tasks = [⟨1, "a", "todo", 0, 0⟩, ⟨3, "b", "todo", 0, 0⟩] ∧
      tm₁.nextID = 4 ∧
      (LoadTasks (emptyManager "tasks.json") .missing).1
        = .ok { emptyManager "tasks.json" with nextID := 1 } ∧
      addedIDs (AddTask tm₁ (.holds [⟨1, "a", "todo", 0, 0⟩, ⟨3, "b", "todo", 0, 0⟩])
        "c" 1 1 none).out = [tm₁.nextID] :=
  LoadTasks_sets_nextID (emptyManager "tasks.json")
    [⟨1, "a", "todo", 0, 0⟩, ⟨3, "b", "todo", 0, 0⟩]
    (.holds [⟨1, "a", "todo", 0, 0⟩, ⟨3, "b", "todo", 0, 0⟩]) "c" 1 1 none
    (by decide) (by decide)

/-! ### Listing -/

theorem shownTasks_map_printTask (ts : List TaskImpl) :
    shownTasks (ts.map printTask)
      = ts.map (fun t => (t.GetID, t.GetDescription, t.GetStatus)) := by
  induction ts with
  | nil => rfl
  | cons t ts ih =>
    simp only [shownTasks, List.map_cons, List.filterMap_cons, printTask] at ih ⊢
    rw [ih]

/-- C16 (as stated, refuted): the status "blocked" is not one of the three the
dispatcher recognises, yet on a manager loaded from a file that holds a task of
that status `ListFilterByStatus` "blocked" shows the task. -/
theorem ListFilterByStatus_shows_unrecognised :
    isValidStatus "blocked" = false ∧
    (LoadTasks (emptyManager "tasks.json") (.holds [⟨1, "a", "blocked", 0, 0⟩])).1
      = .ok ⟨"tasks.json", [⟨1, "a", "blocked", 0, 0⟩], 2⟩ ∧
    shownTasks (ListFilterByStatus ⟨"tasks.json", [⟨1, "a", "blocked", 0, 0⟩], 2⟩
      (.holds [⟨1, "a", "blocked", 0, 0⟩]) "blocked").out = [(1, "a", "blocked")] := by
  refine ⟨by decide, rfl, by decide⟩

/-- C16 (amended): `ListFilterByStatus` shows exactly the tasks whose status equals
the given string, in the order of the list, and nothing when no task carries that
status; it leaves the manager and the file as they were and does not call
`SaveTasks`. -/
theorem ListFilterByStatus_shows (tm : TaskManagerImpl) (file : FileState) (s : String) :
    shownTasks (ListFilterByStatus tm file s).out
      = (tm.tasks.filter (fun t => t.GetStatus = s)).map
          (fun t => (t.GetID, t.GetDescription, t.GetStatus)) ∧
    (shownTasks (ListFilterByStatus tm file s).out = [] ↔ ∀ t ∈ tm.tasks, t.GetStatus ≠ s) ∧
    (ListFilterByStatus tm file s).tm = tm ∧
    (ListFilterByStatus tm file s).file = file ∧
    (ListFilterByStatus tm file s).saved = [] := by
  have hshown : shownTasks (ListFilterByStatus tm file s).out
      = (tm.tasks.filter (fun t => t.GetStatus = s)).map
          (fun t => (t.GetID, t.GetDescription, t.GetStatus)) := by
    simp only [ListFilterByStatus]
    split
    · next h =>
      have : tm.tasks = [] := List.length_eq_zero.mp h
      simp [this, shownTasks]
    · split
      · next h =>
        have := List.length_eq_zero.mp h
        rw [this]
        simp [shownTasks]
      · exact shownTasks_map_printTask _
  refine ⟨hshown, ?_, ?_, ?_, ?_⟩
  · rw [hshown]
    simp [List.filter_eq_nil_iff]
  · simp only [ListFilterByStatus]
    split
    · rfl
    · split <;> rfl
  · simp only [ListFilterByStatus]
    split
    · rfl
    · split <;> rfl
  · simp only [ListFilterByStatus]
    split
    · rfl
    · split <;> rfl

/-! ### Saves that fail -/

/-- C17: the manager a call leaves behind is the same whether the save fails or
succeeds; after a failed save the same list has been handed to `SaveTasks`, and
`nextID` has been incremented (wrapping like any `int`) exactly when the call was
an accepted `AddTask`, whose new task stays in the list. The file after a failed
save is the file before it only because the write is taken to fail before the
file is opened. -/
theorem failed_save_keeps_mutation (tm : TaskManagerImpl) (file : FileState) (op : Op)
    (e : String) (d : String) (now₁ now₂ : Time) :
    (exec tm file ⟨op, some e⟩).tm = (exec tm file ⟨op, none⟩).tm ∧
    (exec tm file ⟨op, some e⟩).saved = (exec tm file ⟨op, none⟩).saved ∧
    (exec tm file ⟨op, some e⟩).file = file ∧
    (exec tm file ⟨op, some e⟩).tm.nextID
      = (if Call.isAdd ⟨op, some e⟩ then wrapInt (tm.nextID + 1) else tm.nextID) ∧
    (AddTask tm file d now₁ now₂ (some e)).tm.tasks
      = (if d = "" then tm.tasks else tm.tasks ++ [⟨tm.nextID, d, "todo", now₁, now₂⟩]) ∧
    (AddTask tm file d now₁ now₂ (some e)).tm.nextID
      = (if d = "" then tm.nextID else wrapInt (tm.nextID + 1)) := by
  refine ⟨?_, ?_, ?_, exec_nextID tm file ⟨op, some e⟩, ?_, ?_⟩
  · cases op with
    | add d n₁ n₂ => by_cases hd : d = "" <;> simp [exec, AddTask, hd]
    | update id d n =>
      simp only [exec, UpdateTask]
      cases findTask tm id <;> rfl
    | delete id =>
      simp only [exec, DeleteTask]
      cases indexOfID tm.tasks id <;> rfl
    | markInProgress id =>
      simp only [exec, MarkTaskInProgress]
      cases findTask tm id <;> rfl
    | markDone id =>
      simp only [exec, MarkTaskDone]
      cases findTask tm id <;> rfl
    | list => rfl
    | listFilter s => rfl
  · cases op with
    | add d n₁ n₂ => by_cases hd : d = "" <;> simp [exec, AddTask, hd]
    | update id d n =>
      simp only [exec, UpdateTask]
      cases findTask tm id <;> rfl
    | delete id =>
      simp only [exec, DeleteTask]
      cases indexOfID tm.tasks id <;> rfl
    | markInProgress id =>
      simp only [exec, MarkTaskInProgress]
      cases findTask tm id <;> rfl
    | markDone id =>
      simp only [exec, MarkTaskDone]
      cases findTask tm id <;> rfl
    | list => rfl
    | listFilter s => rfl
  · rcases exec_file tm file ⟨op, some e⟩ with h | h
    · exact h
    · cases op with
      | add d n₁ n₂ => by_cases hd : d = "" <;> simp [exec, AddTask, hd, SaveTasks]
      | update id d n =>
        simp only [exec, UpdateTask]
        cases findTask tm id <;> rfl
      | delete id =>
        simp only [exec, DeleteTask]
        cases indexOfID tm.tasks id <;> rfl
      | markInProgress id =>
        simp only [exec, MarkTaskInProgress]
        cases findTask tm id <;> rfl
      | markDone id =>
        simp only [exec, MarkTaskDone]
        cases findTask tm id <;> rfl
      | list =>
        simp only [exec, ListTasks]
        split <;> rfl
      | listFilter s =>
        simp only [exec, ListFilterByStatus]
        split
        · rfl
        · split <;> rfl
  · by_cases hd : d = "" <;> simp [AddTask, hd]
  · by_cases hd : d = "" <;> simp [AddTask, hd]

end TaskTracker

namespace TaskTracker

/-! ### The creation time of a task -/

theorem createdAt_updateAt (f : TaskImpl → TaskImpl)
    (hf : ∀ t, (f t).GetID = t.GetID ∧ (f t).CreatedAt = t.CreatedAt)
    (ts : List TaskImpl) (i : Nat) :
    (updateAt f ts i).map (fun t => (t.GetID, t.CreatedAt))
      = ts.map (fun t => (t.GetID, t.CreatedAt)) := by
  induction ts generalizing i with
  | nil => simp [updateAt]
  | cons t ts ih =>
    cases i with
    | zero => simp [updateAt, hf]
    | succ i => simp [updateAt, ih]

/-- C19: no operation changes the id or the createdAt of a task that stays in the
list. `AddTask` keeps the old list and appends at most one task; `DeleteTask`
leaves a sublist of the old records; `UpdateTask`, `MarkTaskInProgress` and
`MarkTaskDone` keep, position by position, the id and the createdAt of every
task; the two listings keep the list itself. -/
theorem createdAt_immutable (tm : TaskManagerImpl) (file : FileState) (id : Int)
    (d s : String) (now₁ now₂ : Time) (werr : Option String) :
    (∃ new, (AddTask tm file d now₁ now₂ werr).tm.tasks = tm.tasks ++ new ∧ new.length ≤ 1) ∧
    (UpdateTask tm file id d now₁ werr).tm.tasks.map (fun t => (t.GetID, t.CreatedAt))
      = tm.tasks.map (fun t => (t.GetID, t.CreatedAt)) ∧
    List.Sublist (DeleteTask tm file id werr).tm.tasks tm.tasks ∧
    (MarkTaskInProgress tm file id werr).tm.tasks.map (fun t => (t.GetID, t.CreatedAt))
      = tm.tasks.map (fun t => (t.GetID, t.CreatedAt)) ∧
    (MarkTaskDone tm file id werr).tm.tasks.map (fun t => (t.GetID, t.CreatedAt))
      = tm.tasks.map (fun t => (t.GetID, t.CreatedAt)) ∧
    (ListTasks tm file).tm.tasks = tm.tasks ∧
    (ListFilterByStatus tm file s).tm.tasks = tm.tasks := by
  refine ⟨?_, ?_, ?_, ?_, ?_, ?_, ?_⟩
  · by_cases hd : d = ""
    · exact ⟨[], by simp [AddTask, hd], by simp⟩
    · exact ⟨[⟨tm.nextID, d, "todo", now₁, now₂⟩], by simp [AddTask, hd], by simp⟩
  · simp only [UpdateTask]
    cases findTask tm id with
    | error e => rfl
    | ok i =>
      by_cases hd : d = ""
      · simp [hd]
      · simp only [hd, ne_eq, not_false_eq_true, if_true]
        exact createdAt_updateAt (fun t => (t.SetDescription d).SetUpdatedAt now₁)
          (fun t => ⟨rfl, rfl⟩) tm.tasks i
  · simp only [DeleteTask]
    cases indexOfID tm.tasks id with
    | none => exact List.Sublist.refl _
    | some i => exact take_append_drop_sublist tm.tasks i
  · simp only [MarkTaskInProgress]
    cases findTask tm id with
    | error e => rfl
    | ok i =>
      exact createdAt_updateAt (fun t => t.SetStatus "in-progress")
        (fun t => ⟨rfl, rfl⟩) tm.tasks i
  · simp only [MarkTaskDone]
    cases findTask tm id with
    | error e => rfl
    | ok i =>
      exact createdAt_updateAt (fun t => t.SetStatus "done")
        (fun t => ⟨rfl, rfl⟩) tm.tasks i
  · simp only [ListTasks]
    split <;> rfl
  · simp only [ListFilterByStatus]
    split
    · rfl
    · split <;> rfl

/-! ### A whole session -/

/-- C20: from the empty manager, `AddTask` "buy milk" reports id 1 and leaves one
task with id 1 and status "todo"; `MarkTaskDone` 1 makes its status "done";
`ListFilterByStatus` "done" then shows exactly that task; `DeleteTask` 1 empties
the list; `ListTasks` then prints "No tasks found.". -/
theorem scenario_buy_milk (path : String) (now₁ now₂ : Time) :
    (runSession (emptyManager path) .missing [⟨.add "buy milk" now₁ now₂, none⟩]).out
      = [Msg.added 1] ∧
    (runSession (emptyManager path) .missing [⟨.add "buy milk" now₁ now₂, none⟩]).tm.tasks
      = [⟨1, "buy milk", "todo", now₁, now₂⟩] ∧
    (runSession (emptyManager path) .missing
      [⟨.add "buy milk" now₁ now₂, none⟩, ⟨.markDone 1, none⟩]).tm.tasks
      = [⟨1, "buy milk", "done", now₁, now₂⟩] ∧
    shownTasks (ListFilterByStatus
      (runSession (emptyManager path) .missing
        [⟨.add "buy milk" now₁ now₂, none⟩, ⟨.markDone 1, none⟩]).tm
      (runSession (emptyManager path) .missing
        [⟨.add "buy milk" now₁ now₂, none⟩, ⟨.markDone 1, none⟩]).file "done").out
      = [(1, "buy milk", "done")] ∧
    (runSession (emptyManager path) .missing
      [⟨.add "buy milk" now₁ now₂, none⟩, ⟨.markDone 1, none⟩, ⟨.listFilter "done", none⟩,
       ⟨.delete 1, none⟩]).tm.tasks = [] ∧
    (runSession (emptyManager path) .missing
      [⟨.add "buy milk" now₁ now₂, none⟩, ⟨.markDone 1, none⟩, ⟨.listFilter "done", none⟩,
       ⟨.delete 1, none⟩, ⟨.list, none⟩]).out
      = [Msg.added 1, Msg.markedDone, Msg.taskLine 1 "buy milk" "done", Msg.deleted,
         Msg.noTasks] ∧
    (runSession (emptyManager path) .missing
      [⟨.add "buy milk" now₁ now₂, none⟩, ⟨.markDone 1, none⟩, ⟨.listFilter "done", none⟩,
       ⟨.delete 1, none⟩, ⟨.list, none⟩]).file = .holds [] ∧
    Msg.text Msg.noTasks = "No tasks found.\n" := by
  refine ⟨rfl, rfl, rfl, rfl, rfl, rfl, rfl, rfl⟩

end TaskTracker

namespace TaskTracker

/-! ### The command line -/

/-- C18 (as stated, refuted): `add` without a description is not turned down by the
dispatcher. It calls `AddTask` with the empty description, which prints
"Description cannot be empty"; no usage message is printed and the process ends
with status 0. -/
theorem add_without_description_exits_zero :
    main ["task-tracker", "add"] (.ok "tasks.json") .missing 0 0 none
      = { out := [.app .fileNotFound, .app .descriptionEmpty],
          called := some (.add "" 0 0), file := .missing, status := 0 } ∧
    (main ["task-tracker", "add"] (.ok "tasks.json") .missing 0 0 none).status = 0 := by
  decide

/-- C18 (amended): once the manager has been built and the flag parser has handed
back the arguments, an unknown command, `update` with fewer than two arguments,
`delete`, `mark-in-progress` or `mark-done` without an argument, an id that
`strconv.Atoi` does not accept, or a filter of `list` other than todo,
in-progress or done makes `main` print one message of its own ("Invalid
command", a usage line, "Invalid ID" or the filter message), call no method of
the manager, leave the file alone and exit with status 1. `add` without a
description is passed on to `AddTask`, which prints "Description cannot be
empty" and changes nothing. -/
theorem invalid_usage_exits_one (osArgs : List String) (abs : Except String String)
    (file : FileState) (now₁ now₂ : Time) (werr : Option String) (tm : TaskManagerImpl)
    (out₀ : List Msg) (prog : String)
    (hnew : NewTaskManager abs file = (.ok tm, out₀)) (h : InvalidUsage osArgs) :
    (∃ m, m ∈ [MainMsg.invalidCommand, .usageUpdate, .invalidID, .usageDelete,
          .usageMarkInProgress, .usageMarkDone, .invalidFilter] ∧
      main osArgs abs file now₁ now₂ werr
        = { out := out₀.map .app ++ [.cli m], called := none, file := file, status := 1 }) ∧
    main [prog, "add"] abs file now₁ now₂ werr
      = { out := out₀.map .app ++ [.app .descriptionEmpty], called := some (.add "" now₁ now₂),
          file := file, status := 0 } := by
  constructor
  · cases h with
    | unknownCommand prog command rest hc =>
      simp only [commands, List.mem_cons, List.mem_singleton, List.not_mem_nil, or_false,
        not_or] at hc
      obtain ⟨h1, h2, h3, h4, h5, h6⟩ := hc
      exact ⟨.invalidCommand, by simp, by simp [main, hnew, dispatch, h1, h2, h3, h4, h5, h6]⟩
    | updateTooFew prog rest args hp hlen =>
      refine ⟨.usageUpdate, by simp, ?_⟩
      match args, hlen with
      | [], _ => simp [main, hnew, dispatch, hp]
      | [a], _ => simp [main, hnew, dispatch, hp]
      | a :: b :: more, hlen => exact absurd hlen (by simp)
    | updateBadID prog rest a d more hp ha =>
      exact ⟨.invalidID, by simp, by simp [main, hnew, dispatch, hp, ha]⟩
    | idMissing prog command rest hc hp =>
      simp only [List.mem_cons, List.mem_singleton, List.not_mem_nil, or_false] at hc
      rcases hc with rfl | rfl | rfl
      · exact ⟨.usageDelete, by simp, by simp [main, hnew, dispatch, hp]⟩
      · exact ⟨.usageMarkInProgress, by simp, by simp [main, hnew, dispatch, hp]⟩
      · exact ⟨.usageMarkDone, by simp, by simp [main, hnew, dispatch, hp]⟩
    | badID prog command rest a more hc hp ha =>
      simp only [List.mem_cons, List.mem_singleton, List.not_mem_nil, or_false] at hc
      rcases hc with rfl | rfl | rfl <;>
        exact ⟨.invalidID, by simp, by simp [main, hnew, dispatch, hp, ha]⟩
    | badFilter prog rest a more hp ha =>
      exact ⟨.invalidFilter, by simp, by simp [main, hnew, dispatch, hp, ha]⟩
  · simp [main, hnew, dispatch, flagParse, exec, AddTask, String.intercalate]

theorem invalid_usage_exits_one_witness :
    (∃ m, m ∈ [MainMsg.invalidCommand, .usageUpdate, .invalidID, .usageDelete,
          .usageMarkInProgress, .usageMarkDone, .invalidFilter] ∧
      main ["task-tracker", "delete", "abc"] (.ok "tasks.json") .missing 0 0 none
        = { out := [Msg.fileNotFound].map .app ++ [.cli m], called := none, file := .missing,
            status := 1 }) ∧
    main ["task-tracker", "add"] (.ok "tasks.json") .missing 0 0 none
      = { out := [Msg.fileNotFound].map .app ++ [.app .descriptionEmpty],
          called := some (.add "" 0 0), file := .missing, status := 0 } :=
  invalid_usage_exits_one ["task-tracker", "delete", "abc"] (.ok "tasks.json") .missing 0 0 none
    (emptyManager "tasks.json") [Msg.fileNotFound] "task-tracker" rfl
    (InvalidUsage.badID "task-tracker" "delete" ["abc"] "abc" [] (by decide) (by decide)
      (by decide))

end TaskTracker

namespace TaskTracker

/-! ### UTF-8 -/

theorem decodeRune_two (p0 b1 : Nat) (rest : Bytes) (h0 : 0xC2 ≤ p0 ∧ p0 < 0xE0)
    (h1 : 0x80 ≤ b1 ∧ b1 ≤ 0xBF) :
    decodeRune (p0 :: b1 :: rest) = (Char.ofNat (p0 % 32 * 64 + b1 % 64), 2) := by
  unfold decodeRune
  dsimp only
  rw [if_neg (show ¬ p0 < 0x80 by omega), if_neg (show ¬ p0 < 0xC2 by omega),
    if_pos (show p0 < 0xE0 by omega)]
  rw [if_pos h1]

theorem decodeRune_three (p0 b1 b2 : Nat) (rest : Bytes) (h0 : 0xE0 ≤ p0 ∧ p0 < 0xF0)
    (h1 : (if p0 = 0xE0 then 0xA0 else 0x80) ≤ b1 ∧ b1 ≤ (if p0 = 0xED then 0x9F else 0xBF) ∧
      0x80 ≤ b2 ∧ b2 ≤ 0xBF) :
    decodeRune (p0 :: b1 :: b2 :: rest)
      = (Char.ofNat (p0 % 16 * 4096 + b1 % 64 * 64 + b2 % 64), 3) := by
  unfold decodeRune
  dsimp only
  rw [if_neg (show ¬ p0 < 0x80 by omega), if_neg (show ¬ p0 < 0xC2 by omega),
    if_neg (show ¬ p0 < 0xE0 by omega), if_pos (show p0 < 0xF0 by omega)]
  rw [if_pos h1]

theorem decodeRune_four (p0 b1 b2 b3 : Nat) (rest : Bytes) (h0 : 0xF0 ≤ p0 ∧ p0 < 0xF5)
    (h1 : (if p0 = 0xF0 then 0x90 else 0x80) ≤ b1 ∧ b1 ≤ (if p0 = 0xF4 then 0x8F else 0xBF) ∧
      0x80 ≤ b2 ∧ b2 ≤ 0xBF ∧ 0x80 ≤ b3 ∧ b3 ≤ 0xBF) :
    decodeRune (p0 :: b1 :: b2 :: b3 :: rest)
      = (Char.ofNat (p0 % 8 * 262144 + b1 % 64 * 4096 + b2 % 64 * 64 + b3 % 64), 4) := by
  unfold decodeRune
  dsimp only
  rw [if_neg (show ¬ p0 < 0x80 by omega), if_neg (show ¬ p0 < 0xC2 by omega),
    if_neg (show ¬ p0 < 0xE0 by omega), if_neg (show ¬ p0 < 0xF0 by omega),
    if_pos (show p0 < 0xF5 by omega)]
  rw [if_pos h1]

/-- The code point of a character is a Unicode scalar value. -/
theorem toNat_scalar (c : Char) :
    c.toNat < 0xD800 ∨ (0xDFFF < c.toNat ∧ c.toNat < 0x110000) := c.valid

/-- Decoding reads back the rune that was encoded, with the width of its encoding. -/
theorem decodeRune_encodeRune (c : Char) (rest : Bytes) :
    decodeRune (encodeRune c ++ rest) = (c, (encodeRune c).length) := by
  have hv := toNat_scalar c
  have hc : Char.ofNat c.toNat = c := Char.ofNat_toNat c
  unfold encodeRune
  generalize c.toNat = n at hv hc ⊢
  by_cases h1 : n < 0x80
  · rw [if_pos h1]
    show decodeRune (n :: rest) = (c, 1)
    unfold decodeRune
    dsimp only
    rw [if_pos h1, hc]
  · rw [if_neg h1]
    by_cases h2 : n < 0x800
    · rw [if_pos h2]
      show decodeRune ((0xC0 + n / 64) :: (0x80 + n % 64) :: rest) = (c, 2)
      rw [decodeRune_two _ _ _ (by omega) (by omega)]
      have : (0xC0 + n / 64) % 32 * 64 + (0x80 + n % 64) % 64 = n := by omega
      rw [this, hc]
    · rw [if_neg h2]
      by_cases h3 : n < 0x10000
      · rw [if_pos h3]
        show decodeRune ((0xE0 + n / 4096) :: (0x80 + n / 64 % 64) :: (0x80 + n % 64) :: rest)
          = (c, 3)
        rw [decodeRune_three _ _ _ _ (by omega) (by split_ifs <;> omega)]
        have : (0xE0 + n / 4096) % 16 * 4096 + (0x80 + n / 64 % 64) % 64 * 64
            + (0x80 + n % 64) % 64 = n := by omega
        rw [this, hc]
      · rw [if_neg h3]
        show decodeRune ((0xF0 + n / 262144) :: (0x80 + n / 4096 % 64) ::
          (0x80 + n / 64 % 64) :: (0x80 + n % 64) :: rest) = (c, 4)
        rw [decodeRune_four _ _ _ _ _ (by omega) (by split_ifs <;> omega)]
        have : (0xF0 + n / 262144) % 8 * 262144 + (0x80 + n / 4096 % 64) % 64 * 4096
            + (0x80 + n / 64 % 64) % 64 * 64 + (0x80 + n % 64) % 64 = n := by omega
        rw [this, hc]

theorem encodeRune_ne_nil (c : Char) : encodeRune c ≠ [] := by
  unfold encodeRune
  split_ifs <;> simp

theorem decodeFrom_skip (xs rest : Bytes) :
    decodeFrom (xs ++ rest) xs.length = decodeFrom rest 0 := by
  induction xs with
  | nil => rfl
  | cons x xs ih => simpa [decodeFrom] using ih

theorem decodeFrom_encodeRune (c : Char) (rest : Bytes) :
    decodeFrom (encodeRune c ++ rest) 0 = c :: decodeFrom rest 0 := by
  have h := decodeRune_encodeRune c rest
  cases he : encodeRune c with
  | nil => exact absurd he (encodeRune_ne_nil c)
  | cons b bs =>
    rw [he] at h
    show decodeFrom (b :: (bs ++ rest)) 0 = c :: decodeFrom rest 0
    rw [decodeFrom]
    rw [show b :: (bs ++ rest) = (b :: bs) ++ rest from rfl, h]
    simp only [List.length_cons, Nat.add_sub_cancel]
    rw [decodeFrom_skip]

/-- The JSON string written for the bytes of a text is that text. -/
theorem jsonString_utf8 (s : String) : jsonString (utf8 s) = s := by
  have h : ∀ cs : List Char, decodeFrom (cs.flatMap encodeRune) 0 = cs := by
    intro cs
    induction cs with
    | nil => rfl
    | cons c cs ih => rw [List.flatMap_cons, decodeFrom_encodeRune, ih]
  simp [jsonString, utf8, h]

end TaskTracker

namespace TaskTracker

/-! ### Saving and loading again -/

/-- Unmarshalling the object written for a task whose strings are text gives the
task back. -/
theorem unmarshalTask_marshalTask (t : TaskImpl) (hgo : IsGoInt t.ID) :
    unmarshalTask (marshalTask t.bytes) = .ok (some t) := by
  have h1 : fieldOf "id" = some .id := by decide
  have h2 : fieldOf "description" = some .description := by decide
  have h3 : fieldOf "status" = some .status := by decide
  have h4 : fieldOf "createdAt" = some .createdAt := by decide
  have h5 : fieldOf "updatedAt" = some .updatedAt := by decide
  have hid : minInt ≤ t.ID ∧ t.ID ≤ maxInt := hgo
  simp [unmarshalTask, marshalTask, setFields, setField, TaskImpl.bytes, jsonString_utf8,
    h1, h2, h3, h4, h5, hid]

theorem unmarshalElems_marshalTask (ts : List TaskImpl) (hgo : ∀ t ∈ ts, IsGoInt t.ID) :
    unmarshalElems ((ts.map TaskImpl.bytes).map marshalTask) = .ok (ts.map some) := by
  induction ts with
  | nil => rfl
  | cons t ts ih =>
    have ht := unmarshalTask_marshalTask t (hgo t (List.mem_cons_self t ts))
    have hts := ih (fun x hx => hgo x (List.mem_cons_of_mem t hx))
    simp only [List.map_cons, unmarshalElems, ht, hts]

theorem allRecords_map_some (ts : List TaskImpl) : allRecords (ts.map some) = some ts := by
  induction ts with
  | nil => rfl
  | cons t ts ih => simp [allRecords, ih]

/-- The document written for tasks whose strings are text is read back as these
very tasks: what `SaveTasks` leaves in the `FileState`. -/
theorem parsed_marshalTasks (ts : List TaskImpl) (hgo : ∀ t ∈ ts, IsGoInt t.ID) :
    JsonFile.parsed (.document (marshalTasks (ts.map TaskImpl.bytes))) = some (.holds ts) := by
  simp only [JsonFile.parsed, unmarshalTasks, marshalTasks, unmarshalElems_marshalTask ts hgo,
    allRecords_map_some]

/-- On tasks whose strings are text, `SaveTasks` on the `FileState` is `SaveTasks` on the
document. -/
theorem SaveTasksJson_parsed (tm : TaskManagerImpl) (werr : Option String) (file : JsonFile)
    (fs : FileState) (hgo : ∀ t ∈ tm.tasks, IsGoInt t.ID) (hfile : file.parsed = some fs) :
    (SaveTasksJson (tm.tasks.map TaskImpl.bytes) werr file).1 = (SaveTasks tm werr fs).1 ∧
    (SaveTasksJson (tm.tasks.map TaskImpl.bytes) werr file).2.parsed
      = some (SaveTasks tm werr fs).2 := by
  cases werr with
  | none => exact ⟨rfl, parsed_marshalTasks tm.tasks hgo⟩
  | some e => exact ⟨rfl, hfile⟩

end TaskTracker
